import Mathlib

set_option linter.unusedVariables false

/-!
Shallow embedding of the tree-sequence traversal core of `src/utils.py`:
the `TreePosition` cursor (lines 27-75) and the per-tree statistics
accumulator `_compute_per_tree_stats` (lines 90-144).

Genomic coordinates and node times (float64 in the source) are modelled as
exact rationals; numpy arrays are modelled as total functions from indices,
so that "array access in bounds" becomes a provable statement about the
index values the code produces.  The driving `while tree_pos.next()` loop
is modelled with explicit fuel (`statsLoop`); a fuel bound sufficient for
every well-formed table is proved below (`statsLoop_isSome`).
-/

/-- The scanning loops of `TreePosition.next`
(`while k < M and f(k) == left: k += 1`), written with the fuel `M - k`
so that the definition is structural and computable. -/
def scanWhileEqAux (f : ℕ → ℚ) (x : ℚ) : ℕ → ℕ → ℕ
  | 0, k => k
  | fuel + 1, k => if f k = x then scanWhileEqAux f x fuel (k + 1) else k

/-- `scanWhileEq f M x k` advances `k` while `k < M` and `f k = x`. -/
def scanWhileEq (f : ℕ → ℚ) (M : ℕ) (x : ℚ) (k : ℕ) : ℕ :=
  scanWhileEqAux f x (M - k) k

/-- The numba jitclass `TreePosition` (src/utils.py lines 27-48): the
read-only table fields together with the mutable cursor state. -/
structure TreePosition where
  num_edges : ℕ
  sequence_length : ℚ
  edges_left : ℕ → ℚ
  edges_right : ℕ → ℚ
  edge_insertion_order : ℕ → ℕ
  edge_removal_order : ℕ → ℕ
  interval : ℚ × ℚ
  in_range : ℕ × ℕ
  out_range : ℕ × ℕ

/-- Cursor value `k` after the removal-side scan of `next` (lines 62-63). -/
def TreePosition.scanK (tp : TreePosition) : ℕ :=
  scanWhileEq (fun i => tp.edges_right (tp.edge_removal_order i)) tp.num_edges
    tp.interval.2 tp.out_range.2

/-- Cursor value `j` after the insertion-side scan of `next` (lines 64-65). -/
def TreePosition.scanJ (tp : TreePosition) : ℕ :=
  scanWhileEq (fun i => tp.edges_left (tp.edge_insertion_order i)) tp.num_edges
    tp.interval.2 tp.in_range.2

/-- The new right boundary computed by `next` (lines 69-73). -/
def TreePosition.newRight (tp : TreePosition) : ℚ :=
  let right1 := tp.sequence_length
  let right2 := if tp.scanJ < tp.num_edges then
      min right1 (tp.edges_left (tp.edge_insertion_order tp.scanJ)) else right1
  if tp.scanK < tp.num_edges then
      min right2 (tp.edges_right (tp.edge_removal_order tp.scanK)) else right2

/-- `TreePosition.next` (lines 50-75): advance to the next local tree.
Returns the updated cursor together with the boolean result
`j < M or left < sequence_length`. -/
def TreePosition.next (tp : TreePosition) : TreePosition × Bool :=
  ({ tp with
      interval := (tp.interval.2, tp.newRight)
      in_range := (tp.in_range.2, tp.scanJ)
      out_range := (tp.out_range.2, tp.scanK) },
    decide (tp.scanJ < tp.num_edges ∨ tp.interval.2 < tp.sequence_length))

/-- The edge-table inputs of the core (spec section 6): the cursor fields
plus the per-edge parent/child arrays consumed by the accumulator. -/
structure EdgeTable where
  num_edges : ℕ
  sequence_length : ℚ
  edges_left : ℕ → ℚ
  edges_right : ℕ → ℚ
  edge_insertion_order : ℕ → ℕ
  edge_removal_order : ℕ → ℕ
  edges_parent : ℕ → ℕ
  edges_child : ℕ → ℕ

/-- `alloc_tree_position` / `TreePosition.__init__` (lines 29-48, 79-87):
interval `[0, 0)`, both cursors and ranges at 0. -/
def initTreePosition (tb : EdgeTable) : TreePosition :=
  { num_edges := tb.num_edges
    sequence_length := tb.sequence_length
    edges_left := tb.edges_left
    edges_right := tb.edges_right
    edge_insertion_order := tb.edge_insertion_order
    edge_removal_order := tb.edge_removal_order
    interval := (0, 0)
    in_range := (0, 0)
    out_range := (0, 0) }

/-- The accumulator state of `_compute_per_tree_stats` (lines 97-103). -/
structure StatsState where
  num_children : ℕ → ℤ
  nodes_with_arity : ℤ → ℤ
  current_tbl : ℚ
  current_num_internal_nodes : ℤ
  current_max_arity : ℤ

/-- The zero-initialised accumulator state (lines 97-103). -/
def initStats : StatsState :=
  { num_children := fun _ => 0
    nodes_with_arity := fun _ => 0
    current_tbl := 0
    current_num_internal_nodes := 0
    current_max_arity := 0 }

/-- One removal event of the accumulator (lines 105-122). -/
def removeEdge (edges_parent edges_child : ℕ → ℕ) (nodes_time : ℕ → ℚ)
    (e : ℕ) (s : StatsState) : StatsState :=
  let p := edges_parent e
  let a0 := s.num_children p
  let hist1 := Function.update s.nodes_with_arity a0 (s.nodes_with_arity a0 - 1)
  let newMax := if a0 = s.current_max_arity ∧ hist1 a0 = 1 then
      s.current_max_arity - 1 else s.current_max_arity
  let children1 := Function.update s.num_children p (a0 - 1)
  let hist2 := if a0 - 1 = 0 then hist1 else
      Function.update hist1 (a0 - 1) (hist1 (a0 - 1) + 1)
  let newInternal := if a0 - 1 = 0 then s.current_num_internal_nodes - 1
      else s.current_num_internal_nodes
  { num_children := children1
    nodes_with_arity := hist2
    current_tbl := s.current_tbl - (nodes_time p - nodes_time (edges_child e))
    current_num_internal_nodes := newInternal
    current_max_arity := newMax }

/-- One insertion event of the accumulator (lines 124-137). -/
def insertEdge (edges_parent edges_child : ℕ → ℕ) (nodes_time : ℕ → ℚ)
    (e : ℕ) (s : StatsState) : StatsState :=
  let p := edges_parent e
  let a0 := s.num_children p
  let newInternal := if a0 = 0 then s.current_num_internal_nodes + 1
      else s.current_num_internal_nodes
  let hist1 := if a0 = 0 then s.nodes_with_arity else
      Function.update s.nodes_with_arity a0 (s.nodes_with_arity a0 - 1)
  let children1 := Function.update s.num_children p (a0 + 1)
  let hist2 := Function.update hist1 (a0 + 1) (hist1 (a0 + 1) + 1)
  let newMax := if s.current_max_arity < a0 + 1 then a0 + 1 else s.current_max_arity
  { num_children := children1
    nodes_with_arity := hist2
    current_tbl := s.current_tbl + (nodes_time p - nodes_time (edges_child e))
    current_num_internal_nodes := newInternal
    current_max_arity := newMax }

/-- The removal loop of one tree (lines 105-122): process removal-order
positions `[lo, hi)` in order. -/
def processOut (edges_parent edges_child : ℕ → ℕ) (nodes_time : ℕ → ℚ)
    (order : ℕ → ℕ) (lo hi : ℕ) (s : StatsState) : StatsState :=
  (List.range' lo (hi - lo)).foldl
    (fun s i => removeEdge edges_parent edges_child nodes_time (order i) s) s

/-- The insertion loop of one tree (lines 124-137): process insertion-order
positions `[lo, hi)` in order. -/
def processIn (edges_parent edges_child : ℕ → ℕ) (nodes_time : ℕ → ℚ)
    (order : ℕ → ℕ) (lo hi : ℕ) (s : StatsState) : StatsState :=
  (List.range' lo (hi - lo)).foldl
    (fun s i => insertEdge edges_parent edges_child nodes_time (order i) s) s

/-- One emitted tree: the cursor information of the advance call that
produced it and the accumulator state at emission (lines 138-140). -/
structure TreeRecord where
  interval : ℚ × ℚ
  in_range : ℕ × ℕ
  out_range : ℕ × ℕ
  stats : StatsState

/-- The driving loop of `_compute_per_tree_stats` (lines 104-141), with
explicit fuel.  Returns `none` if the fuel is exhausted before the cursor
reports the end of the traversal; otherwise the list of emitted trees in
traversal order together with the final cursor state (the state left by
the advance call that returned false). -/
def statsLoop (edges_parent edges_child : ℕ → ℕ) (nodes_time : ℕ → ℚ) :
    ℕ → TreePosition → StatsState → Option (List TreeRecord × TreePosition)
  | 0, _, _ => none
  | fuel + 1, tp, s =>
    let step := tp.next
    if step.2 then
      let s1 := processOut edges_parent edges_child nodes_time
        step.1.edge_removal_order step.1.out_range.1 step.1.out_range.2 s
      let s2 := processIn edges_parent edges_child nodes_time
        step.1.edge_insertion_order step.1.in_range.1 step.1.in_range.2 s1
      match statsLoop edges_parent edges_child nodes_time fuel step.1 s2 with
      | none => none
      | some (recs, fin) =>
        some (⟨step.1.interval, step.1.in_range, step.1.out_range, s2⟩ :: recs, fin)
    else
      some ([], step.1)

/-- Fuel sufficient for a complete traversal of a well-formed table
(proved sufficient in `statsLoop_isSome`). -/
def statsFuel (tb : EdgeTable) : ℕ := 4 * tb.num_edges + 4

/-- `compute_per_tree_stats` (lines 147-159): run the accumulator over the
whole table from the freshly allocated cursor and zeroed state. -/
def compute_per_tree_stats (tb : EdgeTable) (nodes_time : ℕ → ℚ) :
    Option (List TreeRecord × TreePosition) :=
  statsLoop tb.edges_parent tb.edges_child nodes_time (statsFuel tb)
    (initTreePosition tb) initStats

/-- A default record used only as the `getD` fallback in concrete
statements. -/
def defaultRecord : TreeRecord := ⟨(0, 0), (0, 0), (0, 0), initStats⟩

/-- The emitted trees of a traversal (empty only if the fuel bound were
ever hit, which `statsLoop_isSome` rules out for well-formed tables). -/
def runRecs (tb : EdgeTable) (nodes_time : ℕ → ℚ) : List TreeRecord :=
  ((compute_per_tree_stats tb nodes_time).getD ([], initTreePosition tb)).1

/-- The three per-tree statistics of one emitted tree, in the order
(total branch length, internal-node count, max arity). -/
def recStats (r : TreeRecord) : ℚ × ℤ × ℤ :=
  (r.stats.current_tbl, r.stats.current_num_internal_nodes, r.stats.current_max_arity)

/-!
### Specification-side definitions

These follow the wording of the specification (sections 3, 4, 7, 8) and are
used to state the claims; the reference semantics for refinement-style
claims (`bruteArityAt`) reconstructs a local tree from scratch by direct
interval scanning, as section 8 prescribes.
-/

/-- The spec description of the new right boundary (section 4.1): the
minimum of `sequence_length`, the `left` of the next not-yet-inserted edge
(if any remain) and the `right` of the next not-yet-removed edge (if any
remain). -/
def specNewRight (tp : TreePosition) : ℚ :=
  ((if tp.scanJ < tp.num_edges then
      [tp.edges_left (tp.edge_insertion_order tp.scanJ)] else []) ++
    (if tp.scanK < tp.num_edges then
      [tp.edges_right (tp.edge_removal_order tp.scanK)] else [])).foldr
    min tp.sequence_length

/-- Brute-force out-degree of node `n` in the local tree covering point
`x`, obtained by direct interval scanning of the edge table (spec
section 8, cross-check against brute force). -/
def bruteArityAt (tb : EdgeTable) (x : ℚ) (n : ℕ) : ℕ :=
  ((Finset.range tb.num_edges).filter (fun e =>
    tb.edges_parent e = n ∧ tb.edges_left e ≤ x ∧ x < tb.edges_right e)).card

/-- Brute-force maximum node out-degree of the local tree covering point
`x` (spec section 8). -/
def bruteMaxArityAt (tb : EdgeTable) (num_nodes : ℕ) (x : ℚ) : ℕ :=
  (Finset.range num_nodes).sup (fun n => bruteArityAt tb x n)

/-- Well-formedness of the inputs (spec section 3, Data Model invariants):
edge intervals are non-empty and lie in `[0, sequence_length]`, the two
orders are permutations of `{0, ..., num_edges-1}` sorted by `left`
resp. `right`, and parent/child ids lie in `[0, num_nodes)`. -/
structure WellFormed (tb : EdgeTable) (num_nodes : ℕ) : Prop where
  seq_nonneg : 0 ≤ tb.sequence_length
  left_nonneg : ∀ e, e < tb.num_edges → 0 ≤ tb.edges_left e
  left_lt_right : ∀ e, e < tb.num_edges → tb.edges_left e < tb.edges_right e
  right_le_seq : ∀ e, e < tb.num_edges → tb.edges_right e ≤ tb.sequence_length
  ins_lt : ∀ i, i < tb.num_edges → tb.edge_insertion_order i < tb.num_edges
  rem_lt : ∀ i, i < tb.num_edges → tb.edge_removal_order i < tb.num_edges
  ins_inj : ∀ i, i < tb.num_edges → ∀ j, j < tb.num_edges →
    tb.edge_insertion_order i = tb.edge_insertion_order j → i = j
  rem_inj : ∀ i, i < tb.num_edges → ∀ j, j < tb.num_edges →
    tb.edge_removal_order i = tb.edge_removal_order j → i = j
  ins_sorted : ∀ j, j < tb.num_edges → ∀ i, i ≤ j →
    tb.edges_left (tb.edge_insertion_order i) ≤ tb.edges_left (tb.edge_insertion_order j)
  rem_sorted : ∀ j, j < tb.num_edges → ∀ i, i ≤ j →
    tb.edges_right (tb.edge_removal_order i) ≤ tb.edges_right (tb.edge_removal_order j)
  parent_lt : ∀ e, e < tb.num_edges → tb.edges_parent e < num_nodes
  child_lt : ∀ e, e < tb.num_edges → tb.edges_child e < num_nodes

/-- The cursor state of `tp` carries the (read-only) table fields of `tb`. -/
def Matches (tb : EdgeTable) (tp : TreePosition) : Prop :=
  tp.num_edges = tb.num_edges ∧ tp.sequence_length = tb.sequence_length ∧
  tp.edges_left = tb.edges_left ∧ tp.edges_right = tb.edges_right ∧
  tp.edge_insertion_order = tb.edge_insertion_order ∧
  tp.edge_removal_order = tb.edge_removal_order

/-- Invariant of the cursor state at a call boundary: the cursors are in
range, the current position `interval.2` lies in `[0, sequence_length]`,
every consumed insertion (removal) lies strictly left of the current
position, and every pending one lies at or right of it. -/
structure CursorInv (tp : TreePosition) : Prop where
  j_le : tp.in_range.2 ≤ tp.num_edges
  k_le : tp.out_range.2 ≤ tp.num_edges
  x_nonneg : 0 ≤ tp.interval.2
  x_le : tp.interval.2 ≤ tp.sequence_length
  ins_done : ∀ pos, pos < tp.in_range.2 →
    tp.edges_left (tp.edge_insertion_order pos) < tp.interval.2
  ins_todo : ∀ pos, tp.in_range.2 ≤ pos → pos < tp.num_edges →
    tp.interval.2 ≤ tp.edges_left (tp.edge_insertion_order pos)
  rem_done : ∀ pos, pos < tp.out_range.2 →
    tp.edges_right (tp.edge_removal_order pos) < tp.interval.2
  rem_todo : ∀ pos, tp.out_range.2 ≤ pos → pos < tp.num_edges →
    tp.interval.2 ≤ tp.edges_right (tp.edge_removal_order pos)

/-- Edges whose insertion-order position has been consumed (positions
`[0, j)` of `edge_insertion_order`). -/
def insertedSet (tb : EdgeTable) (j : ℕ) : Finset ℕ :=
  (Finset.range j).image tb.edge_insertion_order

/-- Edges whose removal-order position has been consumed (positions
`[0, k)` of `edge_removal_order`). -/
def removedSet (tb : EdgeTable) (k : ℕ) : Finset ℕ :=
  (Finset.range k).image tb.edge_removal_order

/-- Edges of the currently materialised tree: inserted and not removed. -/
def activeSet (tb : EdgeTable) (j k : ℕ) : Finset ℕ :=
  insertedSet tb j \ removedSet tb k

/-- Out-degree of node `n` in the currently materialised tree. -/
def arityOf (tb : EdgeTable) (j k n : ℕ) : ℕ :=
  ((activeSet tb j k).filter (fun e => tb.edges_parent e = n)).card

/-- Invariant of the accumulator state between events, relative to the
consumed prefixes `[0, j)` / `[0, k)` of the two orders: removals are a
subset of insertions, `num_children` records the out-degree of every node
in the active edge set, and every histogram bucket `a >= 1` counts the
nodes of out-degree `a`. -/
structure StatsInv (tb : EdgeTable) (num_nodes j k : ℕ) (s : StatsState) : Prop where
  removed_sub : removedSet tb k ⊆ insertedSet tb j
  children_eq : ∀ n, s.num_children n = (arityOf tb j k n : ℤ)
  hist_eq : ∀ a : ℤ, 1 ≤ a →
    s.nodes_with_arity a =
      (((Finset.range num_nodes).filter (fun n => s.num_children n = a)).card : ℤ)

/-- `ChainFrom x l y`: the intervals of `l` tile `[x, y)`: the first starts
at `x`, each is non-empty, consecutive ones are contiguous, the last ends
at `y` (spec section 8, interval tiling). -/
def ChainFrom : ℚ → List (ℚ × ℚ) → ℚ → Prop
  | x, [], y => x = y
  | x, p :: l, y => p.1 = x ∧ p.1 < p.2 ∧ ChainFrom p.2 l y

/-- `RangeChain a l b`: the index ranges of `l` are consecutive, starting
at `a` and ending at `b`. -/
def RangeChain : ℕ → List (ℕ × ℕ) → ℕ → Prop
  | a, [], b => a = b
  | a, p :: l, b => p.1 = a ∧ p.1 ≤ p.2 ∧ RangeChain p.2 l b

/-- The list of positions of a half-open index range. -/
def rangePositions (r : ℕ × ℕ) : List ℕ := List.range' r.1 (r.2 - r.1)

/-- The indices into `nodes_with_arity` used by one removal event, and the
decremented `num_children` value, are in range (claim C10): the histogram
is indexed at `num_children[p]` (before the decrement) and, when non-zero,
at `num_children[p] - 1`; the decrement must not go negative. -/
def RemIdxOk (num_nodes : ℕ) (s : StatsState) (p : ℕ) : Prop :=
  0 ≤ s.num_children p ∧ s.num_children p < (num_nodes : ℤ) ∧
    0 ≤ s.num_children p - 1

/-- The indices into `nodes_with_arity` used by one insertion event are in
range (claim C10): the histogram is indexed at `num_children[p]` (when
non-zero) and at `num_children[p] + 1`. -/
def InsIdxOk (num_nodes : ℕ) (s : StatsState) (p : ℕ) : Prop :=
  0 ≤ s.num_children p ∧ s.num_children p < (num_nodes : ℤ) ∧
    s.num_children p + 1 < (num_nodes : ℤ)

/-- All removal events of positions `[lo, hi)`, each evaluated at the
accumulator state the loop reaches just before that event, use in-range
indices. -/
def SafeOutRange (tb : EdgeTable) (nodes_time : ℕ → ℚ) (num_nodes : ℕ)
    (s : StatsState) (lo hi : ℕ) : Prop :=
  ∀ i, lo ≤ i → i < hi →
    RemIdxOk num_nodes
      (processOut tb.edges_parent tb.edges_child nodes_time tb.edge_removal_order lo i s)
      (tb.edges_parent (tb.edge_removal_order i))

/-- All insertion events of positions `[lo, hi)`, each evaluated at the
accumulator state the loop reaches just before that event, use in-range
indices. -/
def SafeInRange (tb : EdgeTable) (nodes_time : ℕ → ℚ) (num_nodes : ℕ)
    (s : StatsState) (lo hi : ℕ) : Prop :=
  ∀ i, lo ≤ i → i < hi →
    InsIdxOk num_nodes
      (processIn tb.edges_parent tb.edges_child nodes_time tb.edge_insertion_order lo i s)
      (tb.edges_parent (tb.edge_insertion_order i))

/-- All events of the tree emitted as `r`, processed from pre-state `s`,
use in-range indices. -/
def SafeCall (tb : EdgeTable) (nodes_time : ℕ → ℚ) (num_nodes : ℕ)
    (s : StatsState) (r : TreeRecord) : Prop :=
  SafeOutRange tb nodes_time num_nodes s r.out_range.1 r.out_range.2 ∧
  SafeInRange tb nodes_time num_nodes
    (processOut tb.edges_parent tb.edges_child nodes_time tb.edge_removal_order
      r.out_range.1 r.out_range.2 s)
    r.in_range.1 r.in_range.2

/-- Every event of the whole traversal uses in-range indices. -/
def SafeRun (tb : EdgeTable) (nodes_time : ℕ → ℚ) (num_nodes : ℕ) :
    StatsState → List TreeRecord → Prop
  | _, [] => True
  | s, r :: rest =>
    SafeCall tb nodes_time num_nodes s r ∧ SafeRun tb nodes_time num_nodes r.stats rest

/-- Any two edges with the same parent whose intervals overlap have
distinct children (holds in a valid tree sequence). -/
def NoDupChildren (tb : EdgeTable) : Prop :=
  ∀ e1, e1 < tb.num_edges → ∀ e2, e2 < tb.num_edges → e1 ≠ e2 →
    tb.edges_parent e1 = tb.edges_parent e2 →
    max (tb.edges_left e1) (tb.edges_left e2) <
      min (tb.edges_right e1) (tb.edges_right e2) →
    tb.edges_child e1 ≠ tb.edges_child e2

/-- No edge has its parent as its own child (holds in a valid tree
sequence). -/
def NoSelfEdges (tb : EdgeTable) : Prop :=
  ∀ e, e < tb.num_edges → tb.edges_child e ≠ tb.edges_parent e

/-!
### Concrete example tables
-/

/-- Two edges `0 -> 1` over `[0, 1)` and `0 -> 2` over `[0, 2)` on a genome
of length 2: node 0 has out-degree 2 on the first tree and 1 on the
second. -/
def exTwo : EdgeTable :=
  { num_edges := 2, sequence_length := 2
    edges_left := fun _ => 0
    edges_right := fun e => if e = 0 then 1 else 2
    edge_insertion_order := fun i => i
    edge_removal_order := fun i => i
    edges_parent := fun _ => 0
    edges_child := fun e => if e = 0 then 1 else 2 }

/-- Node times for `exTwo`. -/
def exTwoTime : ℕ → ℚ := fun n => if n = 0 then 10 else 1

/-- A single edge `0 -> 1` over the whole genome `[0, 1)`. -/
def exOne : EdgeTable :=
  { num_edges := 1, sequence_length := 1
    edges_left := fun _ => 0
    edges_right := fun _ => 1
    edge_insertion_order := fun i => i
    edge_removal_order := fun i => i
    edges_parent := fun _ => 0
    edges_child := fun _ => 1 }

/-- Node times for `exOne`. -/
def exOneTime : ℕ → ℚ := fun n => if n = 0 then 5 else 2

/-- Two identical parallel edges `0 -> 1` over `[0, 1)`: satisfies the
documented input invariants (sorted permutations, ids in range, parent
older than child) yet drives `num_children[0]` up to 2 = num_nodes. -/
def exDup : EdgeTable :=
  { num_edges := 2, sequence_length := 1
    edges_left := fun _ => 0
    edges_right := fun _ => 1
    edge_insertion_order := fun i => i
    edge_removal_order := fun i => i
    edges_parent := fun _ => 0
    edges_child := fun _ => 1 }

/-- Node times for `exDup`. -/
def exDupTime : ℕ → ℚ := fun n => if n = 0 then 1 else 0

/-!
### Scan lemmas
-/

theorem scanWhileEqAux_ge (f : ℕ → ℚ) (x : ℚ) :
    ∀ fuel k, k ≤ scanWhileEqAux f x fuel k := by
  intro fuel
  induction fuel with
  | zero => intro k; simp [scanWhileEqAux]
  | succ n ih =>
    intro k
    simp only [scanWhileEqAux]
    split
    · exact le_trans (Nat.le_succ k) (ih (k + 1))
    · exact le_refl k

theorem scanWhileEqAux_le (f : ℕ → ℚ) (x : ℚ) :
    ∀ fuel k, scanWhileEqAux f x fuel k ≤ k + fuel := by
  intro fuel
  induction fuel with
  | zero => intro k; simp [scanWhileEqAux]
  | succ n ih =>
    intro k
    simp only [scanWhileEqAux]
    split
    · exact le_trans (ih (k + 1)) (by omega)
    · omega

theorem scanWhileEqAux_consumed (f : ℕ → ℚ) (x : ℚ) :
    ∀ fuel k pos, k ≤ pos → pos < scanWhileEqAux f x fuel k → f pos = x := by
  intro fuel
  induction fuel with
  | zero => intro k pos h1 h2; simp [scanWhileEqAux] at h2; omega
  | succ n ih =>
    intro k pos h1 h2
    simp only [scanWhileEqAux] at h2
    by_cases hfk : f k = x
    · rw [if_pos hfk] at h2
      rcases Nat.eq_or_lt_of_le h1 with h | h
      · rw [← h]; exact hfk
      · exact ih (k + 1) pos h h2
    · rw [if_neg hfk] at h2; omega

theorem scanWhileEqAux_stop (f : ℕ → ℚ) (x : ℚ) :
    ∀ fuel k, scanWhileEqAux f x fuel k < k + fuel →
      f (scanWhileEqAux f x fuel k) ≠ x := by
  intro fuel
  induction fuel with
  | zero => intro k h; simp only [scanWhileEqAux] at h; omega
  | succ n ih =>
    intro k h
    simp only [scanWhileEqAux] at h ⊢
    by_cases hfk : f k = x
    · rw [if_pos hfk] at h ⊢
      exact ih (k + 1) (by omega)
    · rw [if_neg hfk]; exact hfk

theorem scanWhileEqAux_progress (f : ℕ → ℚ) (x : ℚ) (fuel k : ℕ)
    (h : 0 < fuel) (hfk : f k = x) : k + 1 ≤ scanWhileEqAux f x fuel k := by
  obtain ⟨n, rfl⟩ := Nat.exists_eq_succ_of_ne_zero (Nat.pos_iff_ne_zero.mp h)
  simp only [scanWhileEqAux, if_pos hfk]
  exact scanWhileEqAux_ge f x n (k + 1)

theorem scanWhileEq_ge (f : ℕ → ℚ) (M : ℕ) (x : ℚ) (k : ℕ) :
    k ≤ scanWhileEq f M x k :=
  scanWhileEqAux_ge f x (M - k) k

theorem scanWhileEq_le (f : ℕ → ℚ) (M : ℕ) (x : ℚ) (k : ℕ) (h : k ≤ M) :
    scanWhileEq f M x k ≤ M := by
  have := scanWhileEqAux_le f x (M - k) k
  unfold scanWhileEq
  omega

theorem scanWhileEq_consumed (f : ℕ → ℚ) (M : ℕ) (x : ℚ) (k pos : ℕ)
    (h1 : k ≤ pos) (h2 : pos < scanWhileEq f M x k) : f pos = x :=
  scanWhileEqAux_consumed f x (M - k) k pos h1 h2

theorem scanWhileEq_stop (f : ℕ → ℚ) (M : ℕ) (x : ℚ) (k : ℕ) (hk : k ≤ M)
    (h : scanWhileEq f M x k < M) : f (scanWhileEq f M x k) ≠ x := by
  apply scanWhileEqAux_stop f x (M - k) k
  unfold scanWhileEq at h
  omega

theorem scanWhileEq_progress (f : ℕ → ℚ) (M : ℕ) (x : ℚ) (k : ℕ)
    (hk : k < M) (hfk : f k = x) : k + 1 ≤ scanWhileEq f M x k :=
  scanWhileEqAux_progress f x (M - k) k (by omega) hfk

/-!
### Projections of `TreePosition.next`
-/

theorem next_num_edges (tp : TreePosition) : (tp.next).1.num_edges = tp.num_edges := rfl

theorem next_sequence_length (tp : TreePosition) :
    (tp.next).1.sequence_length = tp.sequence_length := rfl

theorem next_edges_left (tp : TreePosition) : (tp.next).1.edges_left = tp.edges_left := rfl

theorem next_edges_right (tp : TreePosition) :
    (tp.next).1.edges_right = tp.edges_right := rfl

theorem next_insertion_order (tp : TreePosition) :
    (tp.next).1.edge_insertion_order = tp.edge_insertion_order := rfl

theorem next_removal_order (tp : TreePosition) :
    (tp.next).1.edge_removal_order = tp.edge_removal_order := rfl

theorem next_interval (tp : TreePosition) :
    (tp.next).1.interval = (tp.interval.2, tp.newRight) := rfl

theorem next_in_range (tp : TreePosition) :
    (tp.next).1.in_range = (tp.in_range.2, tp.scanJ) := rfl

theorem next_out_range (tp : TreePosition) :
    (tp.next).1.out_range = (tp.out_range.2, tp.scanK) := rfl

theorem next_bool (tp : TreePosition) :
    (tp.next).2 = decide (tp.scanJ < tp.num_edges ∨ tp.interval.2 < tp.sequence_length) := rfl

theorem matches_next {tb : EdgeTable} {tp : TreePosition} (h : Matches tb tp) :
    Matches tb (tp.next).1 := h

theorem matches_init (tb : EdgeTable) : Matches tb (initTreePosition tb) :=
  ⟨rfl, rfl, rfl, rfl, rfl, rfl⟩

/-!
### The new right boundary in specification shape
-/

theorem newRight_eq_spec (tp : TreePosition) : tp.newRight = specNewRight tp := by
  unfold TreePosition.newRight specNewRight
  by_cases hj : tp.scanJ < tp.num_edges <;> by_cases hk : tp.scanK < tp.num_edges
  · simp only [if_pos hj, if_pos hk, List.cons_append, List.nil_append, List.foldr]
    calc min (min tp.sequence_length (tp.edges_left (tp.edge_insertion_order tp.scanJ)))
          (tp.edges_right (tp.edge_removal_order tp.scanK))
        = min (min (tp.edges_left (tp.edge_insertion_order tp.scanJ)) tp.sequence_length)
          (tp.edges_right (tp.edge_removal_order tp.scanK)) := by
          rw [min_comm tp.sequence_length]
      _ = min (tp.edges_left (tp.edge_insertion_order tp.scanJ))
          (min tp.sequence_length (tp.edges_right (tp.edge_removal_order tp.scanK))) := by
          rw [min_assoc]
      _ = min (tp.edges_left (tp.edge_insertion_order tp.scanJ))
          (min (tp.edges_right (tp.edge_removal_order tp.scanK)) tp.sequence_length) := by
          rw [min_comm tp.sequence_length]
  · simp only [if_pos hj, if_neg hk, List.append_nil, List.foldr]
    rw [min_comm]
  · simp only [if_neg hj, if_pos hk, List.nil_append, List.foldr]
    rw [min_comm]
  · simp [if_neg hj, if_neg hk]

/-!
### Permutation and counting helpers
-/

theorem perm_surj (f : ℕ → ℕ) (M : ℕ) (hlt : ∀ i, i < M → f i < M)
    (hinj : ∀ i, i < M → ∀ j, j < M → f i = f j → i = j) :
    ∀ e, e < M → ∃ i, i < M ∧ f i = e := by
  have himg : (Finset.range M).image f = Finset.range M := by
    apply Finset.eq_of_subset_of_card_le
    · intro x hx
      simp only [Finset.mem_image, Finset.mem_range] at hx ⊢
      obtain ⟨i, hi, rfl⟩ := hx
      exact hlt i hi
    · have hinj' : Set.InjOn f (Finset.range M : Set ℕ) := by
        intro i hi j hj hij
        exact hinj i (by simpa using hi) j (by simpa using hj) hij
      rw [Finset.card_image_of_injOn hinj']
  intro e he
  have hmem : e ∈ (Finset.range M).image f := by
    rw [himg]; exact Finset.mem_range.mpr he
  simp only [Finset.mem_image, Finset.mem_range] at hmem
  obtain ⟨i, hi, hfi⟩ := hmem
  exact ⟨i, hi, hfi⟩

theorem card_filter_update (children : ℕ → ℤ) (nn p : ℕ) (hp : p < nn) (w a : ℤ) :
    (((Finset.range nn).filter (fun n => Function.update children p w n = a)).card : ℤ)
      = (((Finset.range nn).filter (fun n => children n = a)).card : ℤ)
        - (if children p = a then 1 else 0) + (if w = a then 1 else 0) := by
  have hpmem : p ∈ Finset.range nn := Finset.mem_range.mpr hp
  have hpns : p ∉ (Finset.range nn).erase p := Finset.not_mem_erase p _
  have hins : insert p ((Finset.range nn).erase p) = Finset.range nn :=
    Finset.insert_erase hpmem
  have hcongr : ((Finset.range nn).erase p).filter
        (fun n => Function.update children p w n = a)
      = ((Finset.range nn).erase p).filter (fun n => children n = a) := by
    apply Finset.filter_congr
    intro n hn
    have hnp : n ≠ p := Finset.ne_of_mem_erase hn
    simp [Function.update_noteq hnp]
  have h1 : ((Finset.range nn).filter (fun n => Function.update children p w n = a)).card
      = (((Finset.range nn).erase p).filter (fun n => children n = a)).card
        + (if w = a then 1 else 0) := by
    nth_rewrite 1 [← hins]
    rw [Finset.filter_insert]
    by_cases hw : w = a
    · rw [if_pos (by simp [hw]),
        Finset.card_insert_of_not_mem (fun hmem => hpns (Finset.mem_of_mem_filter p hmem)),
        hcongr, if_pos hw]
    · rw [if_neg (by simp [hw]), hcongr, if_neg hw]
      omega
  have h2 : ((Finset.range nn).filter (fun n => children n = a)).card
      = (((Finset.range nn).erase p).filter (fun n => children n = a)).card
        + (if children p = a then 1 else 0) := by
    nth_rewrite 1 [← hins]
    rw [Finset.filter_insert]
    by_cases hc : children p = a
    · rw [if_pos hc,
        Finset.card_insert_of_not_mem (fun hmem => hpns (Finset.mem_of_mem_filter p hmem)),
        if_pos hc]
    · rw [if_neg hc, if_neg hc]
      omega
  rw [h1, h2]
  by_cases hc : children p = a <;> by_cases hw : w = a <;> simp [hc, hw]

/-!
### Active-set lemmas
-/

theorem mem_insertedSet {tb : EdgeTable} {j e : ℕ} :
    e ∈ insertedSet tb j ↔ ∃ pos, pos < j ∧ tb.edge_insertion_order pos = e := by
  simp [insertedSet]

theorem mem_removedSet {tb : EdgeTable} {k e : ℕ} :
    e ∈ removedSet tb k ↔ ∃ pos, pos < k ∧ tb.edge_removal_order pos = e := by
  simp [removedSet]

theorem insertedSet_succ (tb : EdgeTable) (j : ℕ) :
    insertedSet tb (j + 1) = insert (tb.edge_insertion_order j) (insertedSet tb j) := by
  simp [insertedSet, Finset.range_succ, Finset.image_insert]

theorem removedSet_succ (tb : EdgeTable) (k : ℕ) :
    removedSet tb (k + 1) = insert (tb.edge_removal_order k) (removedSet tb k) := by
  simp [removedSet, Finset.range_succ, Finset.image_insert]

theorem activeSet_subset_inserted (tb : EdgeTable) (j k : ℕ) :
    activeSet tb j k ⊆ insertedSet tb j :=
  Finset.sdiff_subset

theorem activeSet_remove (tb : EdgeTable) (j k : ℕ) :
    activeSet tb j (k + 1) = (activeSet tb j k).erase (tb.edge_removal_order k) := by
  unfold activeSet
  rw [removedSet_succ]
  ext x
  simp only [Finset.mem_sdiff, Finset.mem_erase, Finset.mem_insert]
  tauto

theorem activeSet_insert (tb : EdgeTable) (j k : ℕ)
    (h : tb.edge_insertion_order j ∉ removedSet tb k) :
    activeSet tb (j + 1) k = insert (tb.edge_insertion_order j) (activeSet tb j k) := by
  unfold activeSet
  rw [insertedSet_succ]
  ext x
  simp only [Finset.mem_sdiff, Finset.mem_insert]
  constructor
  · rintro ⟨hx | hx, hr⟩
    · exact Or.inl hx
    · exact Or.inr ⟨hx, hr⟩
  · rintro (hx | ⟨hx, hr⟩)
    · exact ⟨Or.inl hx, hx ▸ h⟩
    · exact ⟨Or.inr hx, hr⟩

theorem arityOf_pos {tb : EdgeTable} {j k e : ℕ} (he : e ∈ activeSet tb j k) :
    1 ≤ arityOf tb j k (tb.edges_parent e) := by
  apply Finset.card_pos.mpr
  exact ⟨e, Finset.mem_filter.mpr ⟨he, rfl⟩⟩

theorem arityOf_remove_parent {tb : EdgeTable} {j k : ℕ}
    (he : tb.edge_removal_order k ∈ activeSet tb j k) :
    arityOf tb j (k + 1) (tb.edges_parent (tb.edge_removal_order k))
      = arityOf tb j k (tb.edges_parent (tb.edge_removal_order k)) - 1 := by
  unfold arityOf
  rw [activeSet_remove, Finset.filter_erase, Finset.card_erase_of_mem]
  exact Finset.mem_filter.mpr ⟨he, rfl⟩

theorem arityOf_remove_other {tb : EdgeTable} {j k n : ℕ}
    (hn : tb.edges_parent (tb.edge_removal_order k) ≠ n) :
    arityOf tb j (k + 1) n = arityOf tb j k n := by
  unfold arityOf
  rw [activeSet_remove, Finset.filter_erase, Finset.erase_eq_of_not_mem]
  intro hmem
  exact hn (Finset.mem_filter.mp hmem).2

theorem arityOf_insert_parent {tb : EdgeTable} {j k : ℕ}
    (hrem : tb.edge_insertion_order j ∉ removedSet tb k)
    (hact : tb.edge_insertion_order j ∉ activeSet tb j k) :
    arityOf tb (j + 1) k (tb.edges_parent (tb.edge_insertion_order j))
      = arityOf tb j k (tb.edges_parent (tb.edge_insertion_order j)) + 1 := by
  unfold arityOf
  rw [activeSet_insert tb j k hrem, Finset.filter_insert, if_pos rfl,
    Finset.card_insert_of_not_mem]
  intro hmem
  exact hact (Finset.mem_filter.mp hmem).1

theorem arityOf_insert_other {tb : EdgeTable} {j k n : ℕ}
    (hrem : tb.edge_insertion_order j ∉ removedSet tb k)
    (hn : tb.edges_parent (tb.edge_insertion_order j) ≠ n) :
    arityOf tb (j + 1) k n = arityOf tb j k n := by
  unfold arityOf
  rw [activeSet_insert tb j k hrem, Finset.filter_insert, if_neg hn]

/-!
### Event-level preservation of the accumulator invariant
-/

theorem removeEdge_children (ep ec : ℕ → ℕ) (nt : ℕ → ℚ) (e : ℕ) (s : StatsState) :
    (removeEdge ep ec nt e s).num_children
      = Function.update s.num_children (ep e) (s.num_children (ep e) - 1) := rfl

theorem removeEdge_hist (ep ec : ℕ → ℕ) (nt : ℕ → ℚ) (e : ℕ) (s : StatsState) :
    (removeEdge ep ec nt e s).nodes_with_arity
      = if s.num_children (ep e) - 1 = 0 then
          Function.update s.nodes_with_arity (s.num_children (ep e))
            (s.nodes_with_arity (s.num_children (ep e)) - 1)
        else
          Function.update
            (Function.update s.nodes_with_arity (s.num_children (ep e))
              (s.nodes_with_arity (s.num_children (ep e)) - 1))
            (s.num_children (ep e) - 1)
            (Function.update s.nodes_with_arity (s.num_children (ep e))
              (s.nodes_with_arity (s.num_children (ep e)) - 1)
              (s.num_children (ep e) - 1) + 1) := rfl

theorem insertEdge_children (ep ec : ℕ → ℕ) (nt : ℕ → ℚ) (e : ℕ) (s : StatsState) :
    (insertEdge ep ec nt e s).num_children
      = Function.update s.num_children (ep e) (s.num_children (ep e) + 1) := rfl

theorem insertEdge_hist (ep ec : ℕ → ℕ) (nt : ℕ → ℚ) (e : ℕ) (s : StatsState) :
    (insertEdge ep ec nt e s).nodes_with_arity
      = Function.update
          (if s.num_children (ep e) = 0 then s.nodes_with_arity else
            Function.update s.nodes_with_arity (s.num_children (ep e))
              (s.nodes_with_arity (s.num_children (ep e)) - 1))
          (s.num_children (ep e) + 1)
          ((if s.num_children (ep e) = 0 then s.nodes_with_arity else
            Function.update s.nodes_with_arity (s.num_children (ep e))
              (s.nodes_with_arity (s.num_children (ep e)) - 1))
            (s.num_children (ep e) + 1) + 1) := rfl

theorem removeEdge_inv {tb : EdgeTable} {nn : ℕ} (hwf : WellFormed tb nn)
    (nt : ℕ → ℚ) {j k : ℕ} (hk : k < tb.num_edges)
    (hins : tb.edge_removal_order k ∈ insertedSet tb j)
    {s : StatsState} (hsi : StatsInv tb nn j k s) :
    StatsInv tb nn j (k + 1)
      (removeEdge tb.edges_parent tb.edges_child nt (tb.edge_removal_order k) s) := by
  have heM : tb.edge_removal_order k < tb.num_edges := hwf.rem_lt k hk
  have hnotrem : tb.edge_removal_order k ∉ removedSet tb k := by
    rw [mem_removedSet]
    rintro ⟨pos, hpos, hpe⟩
    have := hwf.rem_inj pos (lt_trans hpos hk) k hk hpe
    omega
  have hact : tb.edge_removal_order k ∈ activeSet tb j k :=
    Finset.mem_sdiff.mpr ⟨hins, hnotrem⟩
  have hp : tb.edges_parent (tb.edge_removal_order k) < nn := hwf.parent_lt _ heM
  have hv1 : 1 ≤ arityOf tb j k (tb.edges_parent (tb.edge_removal_order k)) :=
    arityOf_pos hact
  have hvc : s.num_children (tb.edges_parent (tb.edge_removal_order k))
      = (arityOf tb j k (tb.edges_parent (tb.edge_removal_order k)) : ℤ) :=
    hsi.children_eq _
  constructor
  · rw [removedSet_succ]
    exact Finset.insert_subset_iff.mpr ⟨hins, hsi.removed_sub⟩
  · intro n
    rw [removeEdge_children]
    by_cases hn : n = tb.edges_parent (tb.edge_removal_order k)
    · subst hn
      rw [Function.update_same, arityOf_remove_parent hact, hvc]
      omega
    · rw [Function.update_noteq hn, arityOf_remove_other (Ne.symm hn), hsi.children_eq n]
  · intro a ha
    rw [removeEdge_hist, removeEdge_children]
    set p := tb.edges_parent (tb.edge_removal_order k) with hpdef
    set v := s.num_children p with hvdef
    have hvpos : 1 ≤ v := by rw [hvc]; exact_mod_cast hv1
    have hcard := card_filter_update s.num_children nn p hp (v - 1) a
    rw [hcard]
    by_cases hz : v - 1 = 0
    · rw [if_pos hz]
      by_cases hav : a = v
      · rw [hav, Function.update_same, hsi.hist_eq v (by omega)]
        have h1 : (if v = v then (1 : ℤ) else 0) = 1 := if_pos rfl
        have h2 : (if v - 1 = v then (1 : ℤ) else 0) = 0 := if_neg (by omega)
        rw [h1, h2]
        omega
      · rw [Function.update_noteq hav, hsi.hist_eq a ha]
        have h1 : (if v = a then (1 : ℤ) else 0) = 0 := if_neg (by omega)
        have h2 : (if v - 1 = a then (1 : ℤ) else 0) = 0 := if_neg (by omega)
        rw [h1, h2]
        omega
    · rw [if_neg hz]
      by_cases hav1 : a = v - 1
      · rw [hav1, Function.update_same,
          Function.update_noteq (by omega : v - 1 ≠ v), hsi.hist_eq (v - 1) (by omega)]
        have h1 : (if v = v - 1 then (1 : ℤ) else 0) = 0 := if_neg (by omega)
        have h2 : (if v - 1 = v - 1 then (1 : ℤ) else 0) = 1 := if_pos rfl
        rw [h1, h2]
        omega
      · rw [Function.update_noteq hav1]
        by_cases hav : a = v
        · rw [hav, Function.update_same, hsi.hist_eq v (by omega)]
          have h1 : (if v = v then (1 : ℤ) else 0) = 1 := if_pos rfl
          have h2 : (if v - 1 = v then (1 : ℤ) else 0) = 0 := if_neg (by omega)
          rw [h1, h2]
          omega
        · rw [Function.update_noteq hav, hsi.hist_eq a ha]
          have h1 : (if v = a then (1 : ℤ) else 0) = 0 := if_neg (by omega)
          have h2 : (if v - 1 = a then (1 : ℤ) else 0) = 0 := if_neg (by omega)
          rw [h1, h2]
          omega

theorem insertEdge_inv {tb : EdgeTable} {nn : ℕ} (hwf : WellFormed tb nn)
    (nt : ℕ → ℚ) {j k : ℕ} (hj : j < tb.num_edges)
    {s : StatsState} (hsi : StatsInv tb nn j k s) :
    StatsInv tb nn (j + 1) k
      (insertEdge tb.edges_parent tb.edges_child nt (tb.edge_insertion_order j) s) := by
  have heM : tb.edge_insertion_order j < tb.num_edges := hwf.ins_lt j hj
  have hnotins : tb.edge_insertion_order j ∉ insertedSet tb j := by
    rw [mem_insertedSet]
    rintro ⟨pos, hpos, hpe⟩
    have := hwf.ins_inj pos (lt_trans hpos hj) j hj hpe
    omega
  have hnotrem : tb.edge_insertion_order j ∉ removedSet tb k :=
    fun h => hnotins (hsi.removed_sub h)
  have hnotact : tb.edge_insertion_order j ∉ activeSet tb j k :=
    fun h => hnotins (activeSet_subset_inserted tb j k h)
  have hp : tb.edges_parent (tb.edge_insertion_order j) < nn := hwf.parent_lt _ heM
  have hv0 : 0 ≤ arityOf tb j k (tb.edges_parent (tb.edge_insertion_order j)) :=
    Nat.zero_le _
  have hvc : s.num_children (tb.edges_parent (tb.edge_insertion_order j))
      = (arityOf tb j k (tb.edges_parent (tb.edge_insertion_order j)) : ℤ) :=
    hsi.children_eq _
  constructor
  · refine hsi.removed_sub.trans ?_
    rw [insertedSet_succ]
    exact Finset.subset_insert _ _
  · intro n
    rw [insertEdge_children]
    by_cases hn : n = tb.edges_parent (tb.edge_insertion_order j)
    · subst hn
      rw [Function.update_same, arityOf_insert_parent hnotrem hnotact, hvc]
      omega
    · rw [Function.update_noteq hn, arityOf_insert_other hnotrem (Ne.symm hn),
        hsi.children_eq n]
  · intro a ha
    rw [insertEdge_hist, insertEdge_children]
    set p := tb.edges_parent (tb.edge_insertion_order j) with hpdef
    set v := s.num_children p with hvdef
    have hvnn : 0 ≤ v := by rw [hvc]; exact_mod_cast hv0
    have hcard := card_filter_update s.num_children nn p hp (v + 1) a
    rw [hcard]
    by_cases hz : v = 0
    · rw [if_pos hz]
      by_cases hav1 : a = v + 1
      · rw [hav1, Function.update_same, hsi.hist_eq (v + 1) (by omega)]
        have h1 : (if v = v + 1 then (1 : ℤ) else 0) = 0 := if_neg (by omega)
        have h2 : (if v + 1 = v + 1 then (1 : ℤ) else 0) = 1 := if_pos rfl
        rw [h1, h2]
        omega
      · rw [Function.update_noteq hav1, hsi.hist_eq a ha]
        have h1 : (if v = a then (1 : ℤ) else 0) = 0 := if_neg (by omega)
        have h2 : (if v + 1 = a then (1 : ℤ) else 0) = 0 := if_neg (by omega)
        rw [h1, h2]
        omega
    · rw [if_neg hz]
      by_cases hav1 : a = v + 1
      · rw [hav1, Function.update_same,
          Function.update_noteq (by omega : v + 1 ≠ v), hsi.hist_eq (v + 1) (by omega)]
        have h1 : (if v = v + 1 then (1 : ℤ) else 0) = 0 := if_neg (by omega)
        have h2 : (if v + 1 = v + 1 then (1 : ℤ) else 0) = 1 := if_pos rfl
        rw [h1, h2]
        omega
      · rw [Function.update_noteq hav1]
        by_cases hav : a = v
        · rw [hav, Function.update_same, hsi.hist_eq v (by omega)]
          have h1 : (if v = v then (1 : ℤ) else 0) = 1 := if_pos rfl
          have h2 : (if v + 1 = v then (1 : ℤ) else 0) = 0 := if_neg (by omega)
          rw [h1, h2]
          omega
        · rw [Function.update_noteq hav, hsi.hist_eq a ha]
          have h1 : (if v = a then (1 : ℤ) else 0) = 0 := if_neg (by omega)
          have h2 : (if v + 1 = a then (1 : ℤ) else 0) = 0 := if_neg (by omega)
          rw [h1, h2]
          omega

/-!
### Well-formedness carried on the cursor state
-/

/-- The cursor-relevant part of `WellFormed`, phrased on the (read-only)
table fields carried by a `TreePosition`. -/
structure WellFormedPos (tp : TreePosition) : Prop where
  seq_nonneg : 0 ≤ tp.sequence_length
  left_nonneg : ∀ e, e < tp.num_edges → 0 ≤ tp.edges_left e
  left_lt_right : ∀ e, e < tp.num_edges → tp.edges_left e < tp.edges_right e
  right_le_seq : ∀ e, e < tp.num_edges → tp.edges_right e ≤ tp.sequence_length
  ins_lt : ∀ i, i < tp.num_edges → tp.edge_insertion_order i < tp.num_edges
  rem_lt : ∀ i, i < tp.num_edges → tp.edge_removal_order i < tp.num_edges
  ins_sorted : ∀ j, j < tp.num_edges → ∀ i, i ≤ j →
    tp.edges_left (tp.edge_insertion_order i) ≤ tp.edges_left (tp.edge_insertion_order j)
  rem_sorted : ∀ j, j < tp.num_edges → ∀ i, i ≤ j →
    tp.edges_right (tp.edge_removal_order i) ≤ tp.edges_right (tp.edge_removal_order j)

theorem wellFormedPos_of {tb : EdgeTable} {nn : ℕ} {tp : TreePosition}
    (hwf : WellFormed tb nn) (hm : Matches tb tp) : WellFormedPos tp := by
  obtain ⟨hM, hL, hel, her, hio, hro⟩ := hm
  constructor
  · rw [hL]; exact hwf.seq_nonneg
  · intro e he; rw [hel]; exact hwf.left_nonneg e (hM ▸ he)
  · intro e he; rw [hel, her]; exact hwf.left_lt_right e (hM ▸ he)
  · intro e he; rw [her, hL]; exact hwf.right_le_seq e (hM ▸ he)
  · intro i hi; rw [hio, hM]; exact hwf.ins_lt i (hM ▸ hi)
  · intro i hi; rw [hro, hM]; exact hwf.rem_lt i (hM ▸ hi)
  · intro j hj i hij; rw [hel, hio]; exact hwf.ins_sorted j (hM ▸ hj) i hij
  · intro j hj i hij; rw [her, hro]; exact hwf.rem_sorted j (hM ▸ hj) i hij

theorem wellFormedPos_next {tp : TreePosition} (h : WellFormedPos tp) :
    WellFormedPos (tp.next).1 :=
  ⟨h.seq_nonneg, h.left_nonneg, h.left_lt_right, h.right_le_seq, h.ins_lt,
    h.rem_lt, h.ins_sorted, h.rem_sorted⟩

/-!
### Initial invariants
-/

theorem cursorInv_init {tb : EdgeTable} {nn : ℕ} (hwf : WellFormed tb nn) :
    CursorInv (initTreePosition tb) := by
  constructor
  · exact Nat.zero_le _
  · exact Nat.zero_le _
  · exact le_refl 0
  · exact hwf.seq_nonneg
  · intro pos hpos; exact absurd hpos (Nat.not_lt_zero pos)
  · intro pos _ hpos
    exact hwf.left_nonneg _ (hwf.ins_lt pos hpos)
  · intro pos hpos; exact absurd hpos (Nat.not_lt_zero pos)
  · intro pos _ hpos
    have h1 := hwf.left_nonneg _ (hwf.rem_lt pos hpos)
    have h2 := hwf.left_lt_right _ (hwf.rem_lt pos hpos)
    exact le_of_lt (lt_of_le_of_lt h1 h2)

theorem statsInv_init (tb : EdgeTable) (nn : ℕ) : StatsInv tb nn 0 0 initStats := by
  constructor
  · intro e he
    simp [removedSet] at he
  · intro n
    simp [initStats, arityOf, activeSet, insertedSet, removedSet]
  · intro a ha
    show (0 : ℤ) = _
    rw [Finset.filter_false_of_mem]
    · simp
    · intro n _
      show ¬ initStats.num_children n = a
      simp [initStats]
      omega

/-!
### Invariant preservation over the per-tree event loops
-/

theorem foldl_remove_inv {tb : EdgeTable} {nn : ℕ} (hwf : WellFormed tb nn)
    (nt : ℕ → ℚ) (j : ℕ) :
    ∀ (n lo : ℕ) (s : StatsState), lo + n ≤ tb.num_edges →
      (∀ pos, lo ≤ pos → pos < lo + n → tb.edge_removal_order pos ∈ insertedSet tb j) →
      StatsInv tb nn j lo s →
      StatsInv tb nn j (lo + n)
        ((List.range' lo n).foldl
          (fun s i => removeEdge tb.edges_parent tb.edges_child nt
            (tb.edge_removal_order i) s) s) := by
  intro n
  induction n with
  | zero => intro lo s _ _ hsi; simpa using hsi
  | succ n ih =>
    intro lo s hle hval hsi
    rw [List.range'_succ, List.foldl_cons]
    have h1 := removeEdge_inv hwf nt (show lo < tb.num_edges by omega)
      (hval lo le_rfl (by omega)) hsi
    have h2 := ih (lo + 1) _ (by omega)
      (fun pos hp1 hp2 => hval pos (by omega) (by omega)) h1
    have heq : lo + 1 + n = lo + (n + 1) := by omega
    rw [heq] at h2
    exact h2

theorem processOut_inv {tb : EdgeTable} {nn : ℕ} (hwf : WellFormed tb nn)
    (nt : ℕ → ℚ) {j lo hi : ℕ} (hlo : lo ≤ hi) (hhi : hi ≤ tb.num_edges)
    (hval : ∀ pos, lo ≤ pos → pos < hi → tb.edge_removal_order pos ∈ insertedSet tb j)
    {s : StatsState} (hsi : StatsInv tb nn j lo s) :
    StatsInv tb nn j hi
      (processOut tb.edges_parent tb.edges_child nt tb.edge_removal_order lo hi s) := by
  have h := foldl_remove_inv hwf nt j (hi - lo) lo s (by omega)
    (fun pos h1 h2 => hval pos h1 (by omega)) hsi
  have heq : lo + (hi - lo) = hi := by omega
  rw [heq] at h
  exact h

theorem foldl_insert_inv {tb : EdgeTable} {nn : ℕ} (hwf : WellFormed tb nn)
    (nt : ℕ → ℚ) (k : ℕ) :
    ∀ (n lo : ℕ) (s : StatsState), lo + n ≤ tb.num_edges →
      StatsInv tb nn lo k s →
      StatsInv tb nn (lo + n) k
        ((List.range' lo n).foldl
          (fun s i => insertEdge tb.edges_parent tb.edges_child nt
            (tb.edge_insertion_order i) s) s) := by
  intro n
  induction n with
  | zero => intro lo s _ hsi; simpa using hsi
  | succ n ih =>
    intro lo s hle hsi
    rw [List.range'_succ, List.foldl_cons]
    have h1 := insertEdge_inv hwf nt (show lo < tb.num_edges by omega) hsi
    have h2 := ih (lo + 1) _ (by omega) h1
    have heq : lo + 1 + n = lo + (n + 1) := by omega
    rw [heq] at h2
    exact h2

theorem processIn_inv {tb : EdgeTable} {nn : ℕ} (hwf : WellFormed tb nn)
    (nt : ℕ → ℚ) {k lo hi : ℕ} (hlo : lo ≤ hi) (hhi : hi ≤ tb.num_edges)
    {s : StatsState} (hsi : StatsInv tb nn lo k s) :
    StatsInv tb nn hi k
      (processIn tb.edges_parent tb.edges_child nt tb.edge_insertion_order lo hi s) := by
  have h := foldl_insert_inv hwf nt k (hi - lo) lo s (by omega) hsi
  have heq : lo + (hi - lo) = hi := by omega
  rw [heq] at h
  exact h

/-!
### The cursor advance step
-/

theorem scanJ_ge (tp : TreePosition) : tp.in_range.2 ≤ tp.scanJ :=
  scanWhileEq_ge _ _ _ _

theorem scanK_ge (tp : TreePosition) : tp.out_range.2 ≤ tp.scanK :=
  scanWhileEq_ge _ _ _ _

theorem scanJ_le (tp : TreePosition) (h : tp.in_range.2 ≤ tp.num_edges) :
    tp.scanJ ≤ tp.num_edges :=
  scanWhileEq_le _ _ _ _ h

theorem scanK_le (tp : TreePosition) (h : tp.out_range.2 ≤ tp.num_edges) :
    tp.scanK ≤ tp.num_edges :=
  scanWhileEq_le _ _ _ _ h

theorem scanJ_consumed (tp : TreePosition) (pos : ℕ) (h1 : tp.in_range.2 ≤ pos)
    (h2 : pos < tp.scanJ) :
    tp.edges_left (tp.edge_insertion_order pos) = tp.interval.2 :=
  scanWhileEq_consumed _ _ _ _ pos h1 h2

theorem scanK_consumed (tp : TreePosition) (pos : ℕ) (h1 : tp.out_range.2 ≤ pos)
    (h2 : pos < tp.scanK) :
    tp.edges_right (tp.edge_removal_order pos) = tp.interval.2 :=
  scanWhileEq_consumed _ _ _ _ pos h1 h2

theorem scanJ_stop (tp : TreePosition) (hk : tp.in_range.2 ≤ tp.num_edges)
    (h : tp.scanJ < tp.num_edges) :
    tp.edges_left (tp.edge_insertion_order tp.scanJ) ≠ tp.interval.2 :=
  scanWhileEq_stop _ _ _ _ hk h

theorem scanK_stop (tp : TreePosition) (hk : tp.out_range.2 ≤ tp.num_edges)
    (h : tp.scanK < tp.num_edges) :
    tp.edges_right (tp.edge_removal_order tp.scanK) ≠ tp.interval.2 :=
  scanWhileEq_stop _ _ _ _ hk h

theorem scanJ_gt {tp : TreePosition} (hci : CursorInv tp) (h : tp.scanJ < tp.num_edges) :
    tp.interval.2 < tp.edges_left (tp.edge_insertion_order tp.scanJ) :=
  lt_of_le_of_ne (hci.ins_todo tp.scanJ (scanJ_ge tp) h)
    (fun heq => scanJ_stop tp hci.j_le h heq.symm)

theorem scanK_gt {tp : TreePosition} (hci : CursorInv tp) (h : tp.scanK < tp.num_edges) :
    tp.interval.2 < tp.edges_right (tp.edge_removal_order tp.scanK) :=
  lt_of_le_of_ne (hci.rem_todo tp.scanK (scanK_ge tp) h)
    (fun heq => scanK_stop tp hci.k_le h heq.symm)

theorem true_call_lt_seq {tp : TreePosition} (hwf : WellFormedPos tp)
    (hci : CursorInv tp) (hb : (tp.next).2 = true) :
    tp.interval.2 < tp.sequence_length := by
  rw [next_bool] at hb
  rcases of_decide_eq_true hb with h | h
  · by_contra hxL
    push_neg at hxL
    have h2 := scanJ_gt hci h
    have h3 := hwf.left_lt_right _ (hwf.ins_lt _ h)
    have h4 := hwf.right_le_seq _ (hwf.ins_lt _ h)
    linarith
  · exact h

theorem newRight_le_seq (tp : TreePosition) : tp.newRight ≤ tp.sequence_length := by
  unfold TreePosition.newRight
  by_cases hj : tp.scanJ < tp.num_edges <;> by_cases hk : tp.scanK < tp.num_edges <;>
    simp only [hj, hk, if_true, if_false]
  · exact le_trans (min_le_left _ _) (min_le_left _ _)
  · exact min_le_left _ _
  · exact le_trans (min_le_left _ _) (le_refl _)
  · exact le_refl _

theorem newRight_le_insLeft (tp : TreePosition) (hj : tp.scanJ < tp.num_edges) :
    tp.newRight ≤ tp.edges_left (tp.edge_insertion_order tp.scanJ) := by
  unfold TreePosition.newRight
  by_cases hk : tp.scanK < tp.num_edges <;> simp only [hj, hk, if_true, if_false]
  · exact le_trans (min_le_left _ _) (min_le_right _ _)
  · exact min_le_right _ _

theorem newRight_le_remRight (tp : TreePosition) (hk : tp.scanK < tp.num_edges) :
    tp.newRight ≤ tp.edges_right (tp.edge_removal_order tp.scanK) := by
  unfold TreePosition.newRight
  simp only [hk, if_true]
  exact min_le_right _ _

theorem true_call_newRight_gt {tp : TreePosition} (hwf : WellFormedPos tp)
    (hci : CursorInv tp) (hb : (tp.next).2 = true) :
    tp.interval.2 < tp.newRight := by
  have hxL := true_call_lt_seq hwf hci hb
  unfold TreePosition.newRight
  by_cases hj : tp.scanJ < tp.num_edges <;> by_cases hk : tp.scanK < tp.num_edges <;>
    simp only [hj, hk, if_true, if_false, lt_min_iff]
  · exact ⟨⟨hxL, scanJ_gt hci hj⟩, scanK_gt hci hk⟩
  · exact ⟨hxL, scanJ_gt hci hj⟩
  · exact ⟨hxL, scanK_gt hci hk⟩
  · exact hxL

theorem cursorInv_next {tp : TreePosition} (hwf : WellFormedPos tp)
    (hci : CursorInv tp) (hb : (tp.next).2 = true) : CursorInv (tp.next).1 := by
  have hgt := true_call_newRight_gt hwf hci hb
  constructor
  · show tp.scanJ ≤ tp.num_edges
    exact scanJ_le tp hci.j_le
  · show tp.scanK ≤ tp.num_edges
    exact scanK_le tp hci.k_le
  · show (0 : ℚ) ≤ tp.newRight
    exact le_of_lt (lt_of_le_of_lt hci.x_nonneg hgt)
  · show tp.newRight ≤ tp.sequence_length
    exact newRight_le_seq tp
  · show ∀ pos, pos < tp.scanJ →
      tp.edges_left (tp.edge_insertion_order pos) < tp.newRight
    intro pos hpos
    by_cases hp0 : pos < tp.in_range.2
    · exact lt_trans (hci.ins_done pos hp0) hgt
    · push_neg at hp0
      rw [scanJ_consumed tp pos hp0 hpos]
      exact hgt
  · show ∀ pos, tp.scanJ ≤ pos → pos < tp.num_edges →
      tp.newRight ≤ tp.edges_left (tp.edge_insertion_order pos)
    intro pos h1 h2
    have hjM : tp.scanJ < tp.num_edges := lt_of_le_of_lt h1 h2
    exact le_trans (newRight_le_insLeft tp hjM) (hwf.ins_sorted pos h2 tp.scanJ h1)
  · show ∀ pos, pos < tp.scanK →
      tp.edges_right (tp.edge_removal_order pos) < tp.newRight
    intro pos hpos
    by_cases hp0 : pos < tp.out_range.2
    · exact lt_trans (hci.rem_done pos hp0) hgt
    · push_neg at hp0
      rw [scanK_consumed tp pos hp0 hpos]
      exact hgt
  · show ∀ pos, tp.scanK ≤ pos → pos < tp.num_edges →
      tp.newRight ≤ tp.edges_right (tp.edge_removal_order pos)
    intro pos h1 h2
    have hkM : tp.scanK < tp.num_edges := lt_of_le_of_lt h1 h2
    exact le_trans (newRight_le_remRight tp hkM) (hwf.rem_sorted pos h2 tp.scanK h1)

theorem cursor_false {tp : TreePosition} (hwf : WellFormedPos tp)
    (hci : CursorInv tp) (hb : (tp.next).2 = false) :
    tp.scanJ = tp.num_edges ∧ tp.scanK = tp.num_edges ∧
      tp.interval.2 = tp.sequence_length ∧ tp.newRight = tp.sequence_length := by
  rw [next_bool, decide_eq_false_iff_not] at hb
  push_neg at hb
  obtain ⟨hjM, hLx⟩ := hb
  have hjeq : tp.scanJ = tp.num_edges := le_antisymm (scanJ_le tp hci.j_le) hjM
  have hxL : tp.interval.2 = tp.sequence_length := le_antisymm hci.x_le hLx
  have hkeq : tp.scanK = tp.num_edges := by
    by_contra hne
    have hkM : tp.scanK < tp.num_edges := lt_of_le_of_ne (scanK_le tp hci.k_le) hne
    have h1 := hci.rem_todo tp.scanK (scanK_ge tp) hkM
    have h2 := hwf.right_le_seq _ (hwf.rem_lt _ hkM)
    have h3 := scanK_stop tp hci.k_le hkM
    apply h3
    rw [hxL]
    exact le_antisymm h2 (hxL ▸ h1)
  refine ⟨hjeq, hkeq, hxL, ?_⟩
  have h1 : ¬ (tp.scanJ < tp.num_edges) := by omega
  have h2 : ¬ (tp.scanK < tp.num_edges) := by omega
  simp [TreePosition.newRight, h1, h2]

/-!
### Call-level lemmas
-/

theorem removed_mem_inserted {tb : EdgeTable} {nn : ℕ} {tp : TreePosition}
    (hwf : WellFormed tb nn) (hm : Matches tb tp) (hci : CursorInv tp)
    {pos : ℕ} (h1 : tp.out_range.2 ≤ pos) (h2 : pos < tp.scanK) :
    tb.edge_removal_order pos ∈ insertedSet tb tp.in_range.2 := by
  obtain ⟨hM, hL, hel, her, hio, hro⟩ := hm
  have hkM : tp.scanK ≤ tp.num_edges := scanK_le tp hci.k_le
  have hposM : pos < tb.num_edges := by omega
  have hval : tp.edges_right (tp.edge_removal_order pos) = tp.interval.2 :=
    scanK_consumed tp pos h1 h2
  have he : tb.edge_removal_order pos < tb.num_edges := hwf.rem_lt pos hposM
  have hlt : tb.edges_left (tb.edge_removal_order pos) < tp.interval.2 := by
    have h3 := hwf.left_lt_right _ he
    rw [← hval, her, hro]
    exact h3
  obtain ⟨q, hq, hqe⟩ := perm_surj tb.edge_insertion_order tb.num_edges
    hwf.ins_lt hwf.ins_inj _ he
  rw [mem_insertedSet]
  refine ⟨q, ?_, hqe⟩
  by_contra hge
  push_neg at hge
  have hqM : q < tp.num_edges := by omega
  have h4 := hci.ins_todo q hge hqM
  rw [hel, hio, hqe] at h4
  linarith

theorem statsLoop_succ_false (ep ec : ℕ → ℕ) (nt : ℕ → ℚ) (fuel : ℕ)
    (tp : TreePosition) (s : StatsState) (hb : (tp.next).2 = false) :
    statsLoop ep ec nt (fuel + 1) tp s = some ([], (tp.next).1) := by
  simp only [statsLoop, hb]
  rfl

theorem statsLoop_succ_true (ep ec : ℕ → ℕ) (nt : ℕ → ℚ) (fuel : ℕ)
    (tp : TreePosition) (s : StatsState) (hb : (tp.next).2 = true) :
    statsLoop ep ec nt (fuel + 1) tp s =
      (match statsLoop ep ec nt fuel (tp.next).1
          (processIn ep ec nt (tp.next).1.edge_insertion_order
            (tp.next).1.in_range.1 (tp.next).1.in_range.2
            (processOut ep ec nt (tp.next).1.edge_removal_order
              (tp.next).1.out_range.1 (tp.next).1.out_range.2 s)) with
        | none => none
        | some (recs, fin) =>
          some (⟨(tp.next).1.interval, (tp.next).1.in_range, (tp.next).1.out_range,
            processIn ep ec nt (tp.next).1.edge_insertion_order
              (tp.next).1.in_range.1 (tp.next).1.in_range.2
              (processOut ep ec nt (tp.next).1.edge_removal_order
                (tp.next).1.out_range.1 (tp.next).1.out_range.2 s)⟩ :: recs, fin)) := by
  simp only [statsLoop, hb]
  rfl

/-!
### The master traversal lemma
-/

theorem run_master {tb : EdgeTable} {nn : ℕ} (hwf : WellFormed tb nn) (nt : ℕ → ℚ) :
    ∀ (fuel : ℕ) (tp : TreePosition) (s : StatsState) (recs : List TreeRecord)
      (fin : TreePosition),
      Matches tb tp → CursorInv tp →
      StatsInv tb nn tp.in_range.2 tp.out_range.2 s →
      statsLoop tb.edges_parent tb.edges_child nt fuel tp s = some (recs, fin) →
      ChainFrom tp.interval.2 (recs.map (fun r => r.interval)) fin.interval.1 ∧
      fin.interval.1 = tb.sequence_length ∧
      RangeChain tp.in_range.2 ((recs.map (fun r => r.in_range)) ++ [fin.in_range])
        tb.num_edges ∧
      RangeChain tp.out_range.2 ((recs.map (fun r => r.out_range)) ++ [fin.out_range])
        tb.num_edges ∧
      (∀ r ∈ recs, StatsInv tb nn r.in_range.2 r.out_range.2 r.stats) := by
  intro fuel
  induction fuel with
  | zero =>
    intro tp s recs fin _ _ _ hrun
    simp [statsLoop] at hrun
  | succ n ih =>
    intro tp s recs fin hm hci hsi hrun
    obtain ⟨hM, hL, hel, her, hio, hro⟩ := id hm
    have hwfp := wellFormedPos_of hwf hm
    cases hb : (tp.next).2 with
    | false =>
      rw [statsLoop_succ_false _ _ _ _ _ _ hb] at hrun
      simp only [Option.some.injEq, Prod.mk.injEq] at hrun
      obtain ⟨hrecs, hfin⟩ := hrun
      subst hrecs
      subst hfin
      obtain ⟨hjM, hkM, hxL, hnew⟩ := cursor_false hwfp hci hb
      refine ⟨?_, ?_, ?_, ?_, ?_⟩
      · show tp.interval.2 = tp.interval.2
        rfl
      · show tp.interval.2 = tb.sequence_length
        rw [hxL, hL]
      · show RangeChain tp.in_range.2 ([] ++ [(tp.in_range.2, tp.scanJ)]) tb.num_edges
        refine ⟨rfl, scanJ_ge tp, ?_⟩
        show tp.scanJ = tb.num_edges
        rw [hjM, hM]
      · show RangeChain tp.out_range.2 ([] ++ [(tp.out_range.2, tp.scanK)]) tb.num_edges
        refine ⟨rfl, scanK_ge tp, ?_⟩
        show tp.scanK = tb.num_edges
        rw [hkM, hM]
      · intro r hr
        simp at hr
    | true =>
      rw [statsLoop_succ_true _ _ _ _ _ _ hb] at hrun
      set s2 := processIn tb.edges_parent tb.edges_child nt
        (tp.next).1.edge_insertion_order (tp.next).1.in_range.1 (tp.next).1.in_range.2
        (processOut tb.edges_parent tb.edges_child nt
          (tp.next).1.edge_removal_order (tp.next).1.out_range.1 (tp.next).1.out_range.2 s)
        with hs2def
      cases hrec : statsLoop tb.edges_parent tb.edges_child nt n (tp.next).1 s2 with
      | none =>
        rw [hrec] at hrun
        simp at hrun
      | some pr =>
        obtain ⟨recs', fin'⟩ := pr
        rw [hrec] at hrun
        simp only [Option.some.injEq, Prod.mk.injEq] at hrun
        obtain ⟨hrecs, hfin⟩ := hrun
        subst hfin
        have hm' : Matches tb (tp.next).1 := matches_next hm
        have hci' := cursorInv_next hwfp hci hb
        have hsJle : tp.scanJ ≤ tb.num_edges := by
          have := scanJ_le tp hci.j_le
          omega
        have hsKle : tp.scanK ≤ tb.num_edges := by
          have := scanK_le tp hci.k_le
          omega
        have hsi2 : StatsInv tb nn tp.scanJ tp.scanK s2 := by
          rw [hs2def]
          rw [show (tp.next).1.edge_insertion_order = tb.edge_insertion_order from hio,
            show (tp.next).1.edge_removal_order = tb.edge_removal_order from hro]
          show StatsInv tb nn tp.scanJ tp.scanK
            (processIn tb.edges_parent tb.edges_child nt tb.edge_insertion_order
              tp.in_range.2 tp.scanJ
              (processOut tb.edges_parent tb.edges_child nt tb.edge_removal_order
                tp.out_range.2 tp.scanK s))
          exact processIn_inv hwf nt (scanJ_ge tp) hsJle
            (processOut_inv hwf nt (scanK_ge tp) hsKle
              (fun pos h1 h2 => removed_mem_inserted hwf hm hci h1 h2) hsi)
        obtain ⟨ch, hfinL, rin, rout, hrecsInv⟩ :=
          ih (tp.next).1 s2 recs' fin' hm' hci' hsi2 hrec
        subst hrecs
        refine ⟨?_, hfinL, ?_, ?_, ?_⟩
        · refine ⟨rfl, ?_, ?_⟩
          · show tp.interval.2 < tp.newRight
            exact true_call_newRight_gt hwfp hci hb
          · exact ch
        · refine ⟨rfl, scanJ_ge tp, ?_⟩
          exact rin
        · refine ⟨rfl, scanK_ge tp, ?_⟩
          exact rout
        · intro r hr
          rcases List.mem_cons.mp hr with h | h
          · subst h
            exact hsi2
          · exact hrecsInv r h

/-!
### Termination of the traversal for well-formed tables
-/

theorem scanWhileEq_of_ge (f : ℕ → ℚ) (M : ℕ) (x : ℚ) (k : ℕ) (h : M ≤ k) :
    scanWhileEq f M x k = k := by
  unfold scanWhileEq
  rw [Nat.sub_eq_zero_of_le h]
  rfl

theorem newRight_eq_remRight_of (tp : TreePosition) (hk : tp.scanK < tp.num_edges)
    (h : ∀ _ : tp.scanJ < tp.num_edges,
      tp.edges_right (tp.edge_removal_order tp.scanK)
        ≤ tp.edges_left (tp.edge_insertion_order tp.scanJ))
    (hL : tp.edges_right (tp.edge_removal_order tp.scanK) ≤ tp.sequence_length) :
    tp.newRight = tp.edges_right (tp.edge_removal_order tp.scanK) := by
  unfold TreePosition.newRight
  by_cases hj : tp.scanJ < tp.num_edges <;> simp only [hj, hk, if_true, if_false]
  · exact min_eq_right (le_min hL (h hj))
  · exact min_eq_right hL

theorem newRight_eq_insLeft_of (tp : TreePosition) (hj : tp.scanJ < tp.num_edges)
    (h : ∀ _ : tp.scanK < tp.num_edges,
      tp.edges_left (tp.edge_insertion_order tp.scanJ)
        ≤ tp.edges_right (tp.edge_removal_order tp.scanK))
    (hL : tp.edges_left (tp.edge_insertion_order tp.scanJ) ≤ tp.sequence_length) :
    tp.newRight = tp.edges_left (tp.edge_insertion_order tp.scanJ) := by
  unfold TreePosition.newRight
  by_cases hk : tp.scanK < tp.num_edges <;> simp only [hj, hk, if_true, if_false]
  · rw [min_eq_right hL]
    exact min_eq_left (h hk)
  · exact min_eq_right hL

theorem newRight_eq_seq_of (tp : TreePosition) (hj : ¬ tp.scanJ < tp.num_edges)
    (hk : ¬ tp.scanK < tp.num_edges) : tp.newRight = tp.sequence_length := by
  unfold TreePosition.newRight
  simp [hj, hk]

/-- On a true call that consumed nothing, the following call either
consumes a cursor position or returns false. -/
theorem second_call_progress {tp : TreePosition} (hwf : WellFormedPos tp)
    (hci : CursorInv tp)
    (hjeq : tp.scanJ = tp.in_range.2) (hkeq : tp.scanK = tp.out_range.2)
    (hb2 : ((tp.next).1.next).2 = true) :
    tp.in_range.2 < ((tp.next).1).scanJ ∨ tp.out_range.2 < ((tp.next).1).scanK := by
  have erJ : ((tp.next).1).scanJ
      = scanWhileEq (fun i => tp.edges_left (tp.edge_insertion_order i)) tp.num_edges
        tp.newRight tp.scanJ := rfl
  have erK : ((tp.next).1).scanK
      = scanWhileEq (fun i => tp.edges_right (tp.edge_removal_order i)) tp.num_edges
        tp.newRight tp.scanK := rfl
  by_cases hjM : tp.scanJ < tp.num_edges
  · have hlj : tp.edges_left (tp.edge_insertion_order tp.scanJ) ≤ tp.sequence_length := by
      have h1 := hwf.left_lt_right _ (hwf.ins_lt _ hjM)
      have h2 := hwf.right_le_seq _ (hwf.ins_lt _ hjM)
      linarith
    by_cases hlr : tp.scanK < tp.num_edges ∧
        tp.edges_right (tp.edge_removal_order tp.scanK)
          < tp.edges_left (tp.edge_insertion_order tp.scanJ)
    · right
      have hrL : tp.edges_right (tp.edge_removal_order tp.scanK) ≤ tp.sequence_length :=
        hwf.right_le_seq _ (hwf.rem_lt _ hlr.1)
      have hnr : tp.newRight = tp.edges_right (tp.edge_removal_order tp.scanK) :=
        newRight_eq_remRight_of tp hlr.1 (fun _ => le_of_lt hlr.2) hrL
      have hprog := scanWhileEq_progress
        (fun i => tp.edges_right (tp.edge_removal_order i)) tp.num_edges
        tp.newRight tp.scanK hlr.1 hnr.symm
      omega
    · left
      have hle : ∀ _ : tp.scanK < tp.num_edges,
          tp.edges_left (tp.edge_insertion_order tp.scanJ)
            ≤ tp.edges_right (tp.edge_removal_order tp.scanK) := by
        intro hkM
        by_contra hcon
        push_neg at hcon
        exact hlr ⟨hkM, hcon⟩
      have hnr : tp.newRight = tp.edges_left (tp.edge_insertion_order tp.scanJ) :=
        newRight_eq_insLeft_of tp hjM hle hlj
      have hprog := scanWhileEq_progress
        (fun i => tp.edges_left (tp.edge_insertion_order i)) tp.num_edges
        tp.newRight tp.scanJ hjM hnr.symm
      omega
  · by_cases hkM : tp.scanK < tp.num_edges
    · right
      have hrL : tp.edges_right (tp.edge_removal_order tp.scanK) ≤ tp.sequence_length :=
        hwf.right_le_seq _ (hwf.rem_lt _ hkM)
      have hnr : tp.newRight = tp.edges_right (tp.edge_removal_order tp.scanK) :=
        newRight_eq_remRight_of tp hkM (fun hj => absurd hj hjM) hrL
      have hprog := scanWhileEq_progress
        (fun i => tp.edges_right (tp.edge_removal_order i)) tp.num_edges
        tp.newRight tp.scanK hkM hnr.symm
      omega
    · exfalso
      have hnr : tp.newRight = tp.sequence_length := newRight_eq_seq_of tp hjM hkM
      have e1 : ((tp.next).1).scanJ = tp.scanJ := by
        rw [erJ]
        exact scanWhileEq_of_ge _ _ _ _ (le_of_not_lt hjM)
      have hfalse : ((tp.next).1.next).2 = false := by
        rw [next_bool]
        apply decide_eq_false
        rintro (h | h)
        · have e2 : (tp.next).1.num_edges = tp.num_edges := rfl
          omega
        · have e3 : (tp.next).1.interval.2 = tp.newRight := rfl
          have e4 : (tp.next).1.sequence_length = tp.sequence_length := rfl
          rw [e3, e4, hnr] at h
          exact lt_irrefl _ h
      rw [hfalse] at hb2
      simp at hb2

theorem statsLoop_isSome {tb : EdgeTable} {nn : ℕ} (hwf : WellFormed tb nn)
    (nt : ℕ → ℚ) :
    ∀ (fuel : ℕ) (tp : TreePosition) (s : StatsState),
      Matches tb tp → CursorInv tp →
      2 * (tb.num_edges - tp.in_range.2) + 2 * (tb.num_edges - tp.out_range.2) + 2 ≤ fuel →
      (statsLoop tb.edges_parent tb.edges_child nt fuel tp s).isSome := by
  intro fuel
  induction fuel using Nat.strong_induction_on with
  | _ fuel ih =>
    intro tp s hm hci hfuel
    obtain ⟨hM, hL, hel, her, hio, hro⟩ := id hm
    have hwfp := wellFormedPos_of hwf hm
    obtain ⟨f, rfl⟩ : ∃ f, fuel = f + 1 := ⟨fuel - 1, by omega⟩
    cases hb : (tp.next).2 with
    | false =>
      rw [statsLoop_succ_false _ _ _ _ _ _ hb]
      simp
    | true =>
      rw [statsLoop_succ_true _ _ _ _ _ _ hb]
      have hm' : Matches tb (tp.next).1 := matches_next hm
      have hci' := cursorInv_next hwfp hci hb
      have e1 : (tp.next).1.in_range.2 = tp.scanJ := rfl
      have e2 : (tp.next).1.out_range.2 = tp.scanK := rfl
      have hjge : tp.in_range.2 ≤ tp.scanJ := scanJ_ge tp
      have hkge : tp.out_range.2 ≤ tp.scanK := scanK_ge tp
      have hjleM : tp.scanJ ≤ tp.num_edges := scanJ_le tp hci.j_le
      have hkleM : tp.scanK ≤ tp.num_edges := scanK_le tp hci.k_le
      by_cases hcons : tp.in_range.2 < tp.scanJ ∨ tp.out_range.2 < tp.scanK
      · have hS := ih f (by omega) (tp.next).1
          (processIn tb.edges_parent tb.edges_child nt
            (tp.next).1.edge_insertion_order (tp.next).1.in_range.1 (tp.next).1.in_range.2
            (processOut tb.edges_parent tb.edges_child nt
              (tp.next).1.edge_removal_order (tp.next).1.out_range.1
              (tp.next).1.out_range.2 s))
          hm' hci' (by omega)
        obtain ⟨⟨recs, fin⟩, hr⟩ := Option.isSome_iff_exists.mp hS
        rw [hr]
        simp
      · push_neg at hcons
        have hjeq : tp.scanJ = tp.in_range.2 := le_antisymm hcons.1 hjge
        have hkeq : tp.scanK = tp.out_range.2 := le_antisymm hcons.2 hkge
        obtain ⟨f2, rfl⟩ : ∃ f2, f = f2 + 1 := ⟨f - 1, by omega⟩
        set s2 := processIn tb.edges_parent tb.edges_child nt
          (tp.next).1.edge_insertion_order (tp.next).1.in_range.1 (tp.next).1.in_range.2
          (processOut tb.edges_parent tb.edges_child nt
            (tp.next).1.edge_removal_order (tp.next).1.out_range.1
            (tp.next).1.out_range.2 s) with hs2
        cases hb2 : ((tp.next).1.next).2 with
        | false =>
          rw [statsLoop_succ_false _ _ _ _ _ _ hb2]
          simp
        | true =>
          rw [statsLoop_succ_true _ _ _ _ _ _ hb2]
          have hm'' : Matches tb ((tp.next).1.next).1 := matches_next hm'
          have hci'' := cursorInv_next (wellFormedPos_next hwfp) hci' hb2
          have hprog := second_call_progress hwfp hci hjeq hkeq hb2
          have e3 : ((tp.next).1.next).1.in_range.2 = ((tp.next).1).scanJ := rfl
          have e4 : ((tp.next).1.next).1.out_range.2 = ((tp.next).1).scanK := rfl
          have hj2ge : (tp.next).1.in_range.2 ≤ ((tp.next).1).scanJ := scanJ_ge (tp.next).1
          have hk2ge : (tp.next).1.out_range.2 ≤ ((tp.next).1).scanK := scanK_ge (tp.next).1
          have hj2le : ((tp.next).1).scanJ ≤ (tp.next).1.num_edges :=
            scanJ_le (tp.next).1 hci'.j_le
          have hk2le : ((tp.next).1).scanK ≤ (tp.next).1.num_edges :=
            scanK_le (tp.next).1 hci'.k_le
          have e5 : (tp.next).1.num_edges = tp.num_edges := rfl
          have hS := ih f2 (by omega) ((tp.next).1.next).1
            (processIn tb.edges_parent tb.edges_child nt
              ((tp.next).1.next).1.edge_insertion_order
              ((tp.next).1.next).1.in_range.1 ((tp.next).1.next).1.in_range.2
              (processOut tb.edges_parent tb.edges_child nt
                ((tp.next).1.next).1.edge_removal_order
                ((tp.next).1.next).1.out_range.1 ((tp.next).1.next).1.out_range.2 s2))
            hm'' hci'' (by omega)
          obtain ⟨⟨recs, fin⟩, hr⟩ := Option.isSome_iff_exists.mp hS
          rw [hr]
          simp

theorem compute_isSome {tb : EdgeTable} {nn : ℕ} (hwf : WellFormed tb nn)
    (nt : ℕ → ℚ) : (compute_per_tree_stats tb nt).isSome := by
  have e1 : (initTreePosition tb).in_range.2 = 0 := rfl
  have e2 : (initTreePosition tb).out_range.2 = 0 := rfl
  exact statsLoop_isSome hwf nt (statsFuel tb) (initTreePosition tb) initStats
    (matches_init tb) (cursorInv_init hwf) (by unfold statsFuel; omega)

/-- The combined consequences of one complete traversal of a well-formed
table from the initial state. -/
theorem compute_spec {tb : EdgeTable} {nn : ℕ} (hwf : WellFormed tb nn)
    (nt : ℕ → ℚ) :
    ∃ recs fin, compute_per_tree_stats tb nt = some (recs, fin) ∧
      ChainFrom 0 (recs.map (fun r => r.interval)) fin.interval.1 ∧
      fin.interval.1 = tb.sequence_length ∧
      RangeChain 0 ((recs.map (fun r => r.in_range)) ++ [fin.in_range]) tb.num_edges ∧
      RangeChain 0 ((recs.map (fun r => r.out_range)) ++ [fin.out_range]) tb.num_edges ∧
      (∀ r ∈ recs, StatsInv tb nn r.in_range.2 r.out_range.2 r.stats) := by
  obtain ⟨⟨recs, fin⟩, hr⟩ := Option.isSome_iff_exists.mp (compute_isSome hwf nt)
  refine ⟨recs, fin, hr, ?_⟩
  exact run_master hwf nt (statsFuel tb) (initTreePosition tb) initStats recs fin
    (matches_init tb) (cursorInv_init hwf) (statsInv_init tb nn) hr

/-!
### Extracting indexed facts from the chain predicates
-/

theorem chainFrom_adjacent {l : List (ℚ × ℚ)} :
    ∀ {x y : ℚ}, ChainFrom x l y → ∀ i, i + 1 < l.length →
      (l.getD (i + 1) (0, 0)).1 = (l.getD i (0, 0)).2 := by
  induction l with
  | nil => intro x y h i hi; simp at hi
  | cons p t ih =>
    intro x y h i hi
    obtain ⟨h1, h2, h3⟩ := h
    cases i with
    | zero =>
      cases t with
      | nil => simp at hi
      | cons q t2 =>
        obtain ⟨h4, _, _⟩ := h3
        simpa using h4
    | succ i2 =>
      have := ih h3 i2 (by simpa using hi)
      simpa using this

theorem chainFrom_nonempty {x y : ℚ} {l : List (ℚ × ℚ)} (h : ChainFrom x l y)
    (hxy : x ≠ y) : l ≠ [] := by
  intro hnil
  subst hnil
  exact hxy h

theorem chainFrom_first {x y : ℚ} {l : List (ℚ × ℚ)} (h : ChainFrom x l y)
    (hne : l ≠ []) : (l.getD 0 (0, 0)).1 = x := by
  cases l with
  | nil => exact absurd rfl hne
  | cons p t => simpa using h.1

theorem chainFrom_lt {l : List (ℚ × ℚ)} :
    ∀ {x y : ℚ}, ChainFrom x l y → ∀ i, i < l.length →
      (l.getD i (0, 0)).1 < (l.getD i (0, 0)).2 := by
  induction l with
  | nil => intro x y h i hi; simp at hi
  | cons p t ih =>
    intro x y h i hi
    obtain ⟨h1, h2, h3⟩ := h
    cases i with
    | zero => simpa using h2
    | succ i2 =>
      have := ih h3 i2 (by simpa using hi)
      simpa using this

theorem chainFrom_last {l : List (ℚ × ℚ)} :
    ∀ {x y : ℚ} (h : ChainFrom x l y) (hne : l ≠ []), (l.getLast hne).2 = y := by
  induction l with
  | nil => intro x y h hne; exact absurd rfl hne
  | cons p t ih =>
    intro x y h hne
    obtain ⟨h1, h2, h3⟩ := h
    cases t with
    | nil =>
      simp only [List.getLast_singleton]
      exact h3
    | cons q t2 =>
      rw [List.getLast_cons (by simp)]
      exact ih h3 (by simp)

theorem rangeChain_le {l : List (ℕ × ℕ)} : ∀ {a b : ℕ}, RangeChain a l b → a ≤ b := by
  induction l with
  | nil => intro a b h; exact le_of_eq h
  | cons p t ih =>
    intro a b h
    obtain ⟨h1, h2, h3⟩ := h
    have := ih h3
    omega

theorem rangeChain_flatten {l : List (ℕ × ℕ)} :
    ∀ {a b : ℕ}, RangeChain a l b →
      (l.map rangePositions).flatten = List.range' a (b - a) := by
  induction l with
  | nil =>
    intro a b h
    obtain rfl : a = b := h
    simp
  | cons p t ih =>
    intro a b h
    obtain ⟨h1, h2, h3⟩ := h
    have hpb : p.2 ≤ b := rangeChain_le h3
    simp only [List.map_cons, List.flatten_cons, ih h3, rangePositions]
    have happ := List.range'_append_1 p.1 (p.2 - p.1) (b - p.2)
    rw [show p.1 + (p.2 - p.1) = p.2 by omega] at happ
    rw [happ, h1, show b - p.2 + (p.2 - a) = b - a by omega]

theorem count_map_perm_eq_one (f : ℕ → ℕ) (M : ℕ)
    (hlt : ∀ i, i < M → f i < M)
    (hinj : ∀ i, i < M → ∀ j, j < M → f i = f j → i = j)
    (e : ℕ) (he : e < M) : ((List.range M).map f).count e = 1 := by
  apply List.count_eq_one_of_mem
  · apply List.Nodup.map_on
    · intro x hx y hy hxy
      exact hinj x (List.mem_range.mp hx) y (List.mem_range.mp hy) hxy
    · exact List.nodup_range M
  · rw [List.mem_map]
    obtain ⟨i, hi, hfi⟩ := perm_surj f M hlt hinj e he
    exact ⟨i, List.mem_range.mpr hi, hfi⟩

/-!
### Arity bounds under the distinct-children hypotheses
-/

theorem card_filter_le_of_inj_children {tb : EdgeTable} {nn : ℕ}
    (hwf : WellFormed tb nn) (hnd : NoDupChildren tb) (hns : NoSelfEdges tb)
    (S : Finset ℕ) (hS : ∀ e ∈ S, e < tb.num_edges)
    (hover : ∀ e1 ∈ S, ∀ e2 ∈ S, e1 ≠ e2 →
      max (tb.edges_left e1) (tb.edges_left e2)
        < min (tb.edges_right e1) (tb.edges_right e2))
    (p : ℕ) :
    (S.filter (fun e => tb.edges_parent e = p)).card ≤ nn - 1 := by
  rcases Finset.eq_empty_or_nonempty (S.filter (fun e => tb.edges_parent e = p))
    with hF | ⟨e0, he0⟩
  · rw [hF]
    simp
  · have he0' := Finset.mem_filter.mp he0
    have hp : p < nn := he0'.2 ▸ hwf.parent_lt e0 (hS e0 he0'.1)
    have himg : (S.filter (fun e => tb.edges_parent e = p)).image tb.edges_child
        ⊆ (Finset.range nn).erase p := by
      intro c hc
      rw [Finset.mem_image] at hc
      obtain ⟨e, he, rfl⟩ := hc
      have hef := Finset.mem_filter.mp he
      rw [Finset.mem_erase, Finset.mem_range]
      exact ⟨hef.2 ▸ hns e (hS e hef.1), hwf.child_lt e (hS e hef.1)⟩
    have hcardimg :
        ((S.filter (fun e => tb.edges_parent e = p)).image tb.edges_child).card
          = (S.filter (fun e => tb.edges_parent e = p)).card := by
      rw [Finset.card_image_of_injOn]
      intro e1 h1 e2 h2 hc
      have hf1 : e1 ∈ S ∧ tb.edges_parent e1 = p := by simpa using h1
      have hf2 : e2 ∈ S ∧ tb.edges_parent e2 = p := by simpa using h2
      by_contra hne
      exact hnd e1 (hS e1 hf1.1) e2 (hS e2 hf2.1) hne (hf1.2.trans hf2.2.symm)
        (hover e1 hf1.1 e2 hf2.1 hne) hc
    calc (S.filter (fun e => tb.edges_parent e = p)).card
        = ((S.filter (fun e => tb.edges_parent e = p)).image tb.edges_child).card :=
          hcardimg.symm
      _ ≤ ((Finset.range nn).erase p).card := Finset.card_le_card himg
      _ = nn - 1 := by
          rw [Finset.card_erase_of_mem (Finset.mem_range.mpr hp), Finset.card_range]

theorem active_bounds_removal_phase {tb : EdgeTable} {nn : ℕ} {tp : TreePosition}
    (hwf : WellFormed tb nn) (hm : Matches tb tp) (hci : CursorInv tp)
    {i : ℕ} (hik : tp.out_range.2 ≤ i) :
    ∀ e ∈ activeSet tb tp.in_range.2 i,
      tb.edges_left e < tp.interval.2 ∧ tp.interval.2 ≤ tb.edges_right e := by
  intro e he
  obtain ⟨hM, hL, hel, her, hio, hro⟩ := id hm
  obtain ⟨hins, hrem⟩ := Finset.mem_sdiff.mp he
  obtain ⟨q, hq, hqe⟩ := mem_insertedSet.mp hins
  have hj0M : tp.in_range.2 ≤ tp.num_edges := hci.j_le
  have heM : e < tb.num_edges := hqe ▸ hwf.ins_lt q (by omega)
  constructor
  · have h1 := hci.ins_done q hq
    rw [hel, hio, hqe] at h1
    exact h1
  · obtain ⟨q', hq', hq'e⟩ := perm_surj tb.edge_removal_order tb.num_edges
      hwf.rem_lt hwf.rem_inj e heM
    have hq'i : i ≤ q' := by
      by_contra hlt
      push_neg at hlt
      exact hrem (mem_removedSet.mpr ⟨q', hlt, hq'e⟩)
    have h2 := hci.rem_todo q' (by omega) (by omega)
    rw [her, hro, hq'e] at h2
    exact h2

theorem active_bounds_insertion_phase {tb : EdgeTable} {nn : ℕ} {tp : TreePosition}
    (hwf : WellFormed tb nn) (hm : Matches tb tp) (hci : CursorInv tp)
    {i : ℕ} (hiJ : i ≤ tp.scanJ) :
    ∀ e ∈ activeSet tb i tp.scanK,
      tb.edges_left e ≤ tp.interval.2 ∧ tp.interval.2 < tb.edges_right e := by
  intro e he
  obtain ⟨hM, hL, hel, her, hio, hro⟩ := id hm
  obtain ⟨hins, hrem⟩ := Finset.mem_sdiff.mp he
  obtain ⟨q, hq, hqe⟩ := mem_insertedSet.mp hins
  have hsJle : tp.scanJ ≤ tp.num_edges := scanJ_le tp hci.j_le
  have heM : e < tb.num_edges := hqe ▸ hwf.ins_lt q (by omega)
  constructor
  · by_cases hq0 : q < tp.in_range.2
    · have h1 := hci.ins_done q hq0
      rw [hel, hio, hqe] at h1
      exact le_of_lt h1
    · push_neg at hq0
      have h1 := scanJ_consumed tp q hq0 (by omega)
      rw [hel, hio, hqe] at h1
      exact le_of_eq h1
  · obtain ⟨q', hq', hq'e⟩ := perm_surj tb.edge_removal_order tb.num_edges
      hwf.rem_lt hwf.rem_inj e heM
    have hq'K : tp.scanK ≤ q' := by
      by_contra hlt
      push_neg at hlt
      exact hrem (mem_removedSet.mpr ⟨q', hlt, hq'e⟩)
    have hKM : tp.scanK < tp.num_edges := by omega
    have h1 := scanK_gt hci hKM
    have hwfp := wellFormedPos_of hwf hm
    have h2 := hwfp.rem_sorted q' (by omega) tp.scanK hq'K
    have h3 : tp.interval.2 < tp.edges_right (tp.edge_removal_order q') :=
      lt_of_lt_of_le h1 h2
    rw [her, hro, hq'e] at h3
    exact h3

theorem active_lt {tb : EdgeTable} {nn : ℕ} (hwf : WellFormed tb nn) {j k : ℕ}
    (hj : j ≤ tb.num_edges) : ∀ e ∈ activeSet tb j k, e < tb.num_edges := by
  intro e he
  obtain ⟨q, hq, hqe⟩ := mem_insertedSet.mp (activeSet_subset_inserted _ _ _ he)
  exact hqe ▸ hwf.ins_lt q (by omega)

theorem arity_le_removal_phase {tb : EdgeTable} {nn : ℕ} {tp : TreePosition}
    (hwf : WellFormed tb nn) (hnd : NoDupChildren tb) (hns : NoSelfEdges tb)
    (hm : Matches tb tp) (hci : CursorInv tp) {i : ℕ} (hik : tp.out_range.2 ≤ i)
    (p : ℕ) : arityOf tb tp.in_range.2 i p ≤ nn - 1 := by
  have hj0le : tp.in_range.2 ≤ tb.num_edges := by
    have h := hci.j_le
    have hM : tp.num_edges = tb.num_edges := hm.1
    omega
  apply card_filter_le_of_inj_children hwf hnd hns
  · exact active_lt hwf hj0le
  · intro e1 h1 e2 h2 hne
    obtain ⟨l1, r1⟩ := active_bounds_removal_phase hwf hm hci hik e1 h1
    obtain ⟨l2, r2⟩ := active_bounds_removal_phase hwf hm hci hik e2 h2
    rw [max_lt_iff, lt_min_iff, lt_min_iff]
    exact ⟨⟨lt_of_lt_of_le l1 r1, lt_of_lt_of_le l1 r2⟩,
      ⟨lt_of_lt_of_le l2 r1, lt_of_lt_of_le l2 r2⟩⟩

theorem arity_le_insertion_phase {tb : EdgeTable} {nn : ℕ} {tp : TreePosition}
    (hwf : WellFormed tb nn) (hnd : NoDupChildren tb) (hns : NoSelfEdges tb)
    (hm : Matches tb tp) (hci : CursorInv tp) {i : ℕ} (hiJ : i ≤ tp.scanJ)
    (p : ℕ) : arityOf tb i tp.scanK p ≤ nn - 1 := by
  have hile : i ≤ tb.num_edges := by
    have h := scanJ_le tp hci.j_le
    have hM : tp.num_edges = tb.num_edges := hm.1
    omega
  apply card_filter_le_of_inj_children hwf hnd hns
  · exact active_lt hwf hile
  · intro e1 h1 e2 h2 hne
    obtain ⟨l1, r1⟩ := active_bounds_insertion_phase hwf hm hci hiJ e1 h1
    obtain ⟨l2, r2⟩ := active_bounds_insertion_phase hwf hm hci hiJ e2 h2
    rw [max_lt_iff, lt_min_iff, lt_min_iff]
    exact ⟨⟨lt_of_le_of_lt l1 r1, lt_of_le_of_lt l1 r2⟩,
      ⟨lt_of_le_of_lt l2 r1, lt_of_le_of_lt l2 r2⟩⟩

theorem removal_phase_safe {tb : EdgeTable} {nn : ℕ} {tp : TreePosition}
    (hwf : WellFormed tb nn) (hnd : NoDupChildren tb) (hns : NoSelfEdges tb)
    (hm : Matches tb tp) (hci : CursorInv tp) (nt : ℕ → ℚ)
    {s : StatsState} (hsi : StatsInv tb nn tp.in_range.2 tp.out_range.2 s) :
    SafeOutRange tb nt nn s tp.out_range.2 tp.scanK := by
  intro i h1 h2
  have hM : tp.num_edges = tb.num_edges := hm.1
  have hKle : tp.scanK ≤ tp.num_edges := scanK_le tp hci.k_le
  have hiM : i < tb.num_edges := by omega
  have hsi_i : StatsInv tb nn tp.in_range.2 i
      (processOut tb.edges_parent tb.edges_child nt tb.edge_removal_order
        tp.out_range.2 i s) :=
    processOut_inv hwf nt h1 (le_of_lt hiM)
      (fun pos hp1 hp2 => removed_mem_inserted hwf hm hci hp1 (by omega)) hsi
  have hins_i : tb.edge_removal_order i ∈ insertedSet tb tp.in_range.2 :=
    removed_mem_inserted hwf hm hci h1 h2
  have hnotrem : tb.edge_removal_order i ∉ removedSet tb i := by
    rw [mem_removedSet]
    rintro ⟨pos, hpos, hpe⟩
    have := hwf.rem_inj pos (by omega) i hiM hpe
    omega
  have hact : tb.edge_removal_order i ∈ activeSet tb tp.in_range.2 i :=
    Finset.mem_sdiff.mpr ⟨hins_i, hnotrem⟩
  have hp : tb.edges_parent (tb.edge_removal_order i) < nn :=
    hwf.parent_lt _ (hwf.rem_lt i hiM)
  have hpre := hsi_i.children_eq (tb.edges_parent (tb.edge_removal_order i))
  have hge1 : 1 ≤ arityOf tb tp.in_range.2 i (tb.edges_parent (tb.edge_removal_order i)) :=
    arityOf_pos hact
  have hle : arityOf tb tp.in_range.2 i (tb.edges_parent (tb.edge_removal_order i))
      ≤ nn - 1 := arity_le_removal_phase hwf hnd hns hm hci h1 _
  refine ⟨?_, ?_, ?_⟩
  · rw [hpre]
    exact_mod_cast Nat.zero_le _
  · rw [hpre]
    exact_mod_cast
      (by omega : arityOf tb tp.in_range.2 i (tb.edges_parent (tb.edge_removal_order i)) < nn)
  · rw [hpre]
    omega

theorem insertion_phase_safe {tb : EdgeTable} {nn : ℕ} {tp : TreePosition}
    (hwf : WellFormed tb nn) (hnd : NoDupChildren tb) (hns : NoSelfEdges tb)
    (hm : Matches tb tp) (hci : CursorInv tp) (nt : ℕ → ℚ)
    {s : StatsState} (hsi : StatsInv tb nn tp.in_range.2 tp.scanK s) :
    SafeInRange tb nt nn s tp.in_range.2 tp.scanJ := by
  intro i h1 h2
  have hM : tp.num_edges = tb.num_edges := hm.1
  have hJle : tp.scanJ ≤ tp.num_edges := scanJ_le tp hci.j_le
  have hiM : i < tb.num_edges := by omega
  have hsi_i : StatsInv tb nn i tp.scanK
      (processIn tb.edges_parent tb.edges_child nt tb.edge_insertion_order
        tp.in_range.2 i s) :=
    processIn_inv hwf nt h1 (le_of_lt hiM) hsi
  have hp : tb.edges_parent (tb.edge_insertion_order i) < nn :=
    hwf.parent_lt _ (hwf.ins_lt i hiM)
  have hpre := hsi_i.children_eq (tb.edges_parent (tb.edge_insertion_order i))
  have harle : arityOf tb i tp.scanK (tb.edges_parent (tb.edge_insertion_order i))
      ≤ nn - 1 := arity_le_insertion_phase hwf hnd hns hm hci (le_of_lt h2) _
  have hnotins : tb.edge_insertion_order i ∉ insertedSet tb i := by
    rw [mem_insertedSet]
    rintro ⟨pos, hpos, hpe⟩
    have := hwf.ins_inj pos (by omega) i hiM hpe
    omega
  have hnotrem : tb.edge_insertion_order i ∉ removedSet tb tp.scanK :=
    fun h => hnotins (hsi_i.removed_sub h)
  have hnotact : tb.edge_insertion_order i ∉ activeSet tb i tp.scanK :=
    fun h => hnotins (activeSet_subset_inserted _ _ _ h)
  have hsucc : arityOf tb (i + 1) tp.scanK (tb.edges_parent (tb.edge_insertion_order i))
      = arityOf tb i tp.scanK (tb.edges_parent (tb.edge_insertion_order i)) + 1 :=
    arityOf_insert_parent hnotrem hnotact
  have hsuccle : arityOf tb (i + 1) tp.scanK (tb.edges_parent (tb.edge_insertion_order i))
      ≤ nn - 1 :=
    arity_le_insertion_phase hwf hnd hns hm hci (by omega : i + 1 ≤ tp.scanJ) _
  refine ⟨?_, ?_, ?_⟩
  · rw [hpre]
    exact_mod_cast Nat.zero_le _
  · rw [hpre]
    exact_mod_cast
      (by omega :
        arityOf tb i tp.scanK (tb.edges_parent (tb.edge_insertion_order i)) < nn)
  · rw [hpre]
    have hlt : arityOf tb i tp.scanK (tb.edges_parent (tb.edge_insertion_order i)) + 1
        < nn := by omega
    exact_mod_cast hlt

theorem run_safe {tb : EdgeTable} {nn : ℕ} (hwf : WellFormed tb nn)
    (hnd : NoDupChildren tb) (hns : NoSelfEdges tb) (nt : ℕ → ℚ) :
    ∀ (fuel : ℕ) (tp : TreePosition) (s : StatsState) (recs : List TreeRecord)
      (fin : TreePosition),
      Matches tb tp → CursorInv tp →
      StatsInv tb nn tp.in_range.2 tp.out_range.2 s →
      statsLoop tb.edges_parent tb.edges_child nt fuel tp s = some (recs, fin) →
      SafeRun tb nt nn s recs := by
  intro fuel
  induction fuel with
  | zero =>
    intro tp s recs fin _ _ _ hrun
    simp [statsLoop] at hrun
  | succ n ih =>
    intro tp s recs fin hm hci hsi hrun
    obtain ⟨hM, hL, hel, her, hio, hro⟩ := id hm
    have hwfp := wellFormedPos_of hwf hm
    cases hb : (tp.next).2 with
    | false =>
      rw [statsLoop_succ_false _ _ _ _ _ _ hb] at hrun
      simp only [Option.some.injEq, Prod.mk.injEq] at hrun
      obtain ⟨hrecs, hfin⟩ := hrun
      subst hrecs
      trivial
    | true =>
      rw [statsLoop_succ_true _ _ _ _ _ _ hb] at hrun
      set s2 := processIn tb.edges_parent tb.edges_child nt
        (tp.next).1.edge_insertion_order (tp.next).1.in_range.1 (tp.next).1.in_range.2
        (processOut tb.edges_parent tb.edges_child nt
          (tp.next).1.edge_removal_order (tp.next).1.out_range.1
          (tp.next).1.out_range.2 s)
        with hs2def
      cases hrec : statsLoop tb.edges_parent tb.edges_child nt n (tp.next).1 s2 with
      | none =>
        rw [hrec] at hrun
        simp at hrun
      | some pr =>
        obtain ⟨recs', fin'⟩ := pr
        rw [hrec] at hrun
        simp only [Option.some.injEq, Prod.mk.injEq] at hrun
        obtain ⟨hrecs, hfin⟩ := hrun
        subst hfin
        subst hrecs
        have hm' : Matches tb (tp.next).1 := matches_next hm
        have hci' := cursorInv_next hwfp hci hb
        have hsJle : tp.scanJ ≤ tb.num_edges := by
          have := scanJ_le tp hci.j_le
          omega
        have hsKle : tp.scanK ≤ tb.num_edges := by
          have := scanK_le tp hci.k_le
          omega
        have hsmid : StatsInv tb nn tp.in_range.2 tp.scanK
            (processOut tb.edges_parent tb.edges_child nt tb.edge_removal_order
              tp.out_range.2 tp.scanK s) :=
          processOut_inv hwf nt (scanK_ge tp) hsKle
            (fun pos hp1 hp2 => removed_mem_inserted hwf hm hci hp1 hp2) hsi
        have hsi2 : StatsInv tb nn tp.scanJ tp.scanK s2 := by
          rw [hs2def]
          rw [show (tp.next).1.edge_insertion_order = tb.edge_insertion_order from hio,
            show (tp.next).1.edge_removal_order = tb.edge_removal_order from hro]
          show StatsInv tb nn tp.scanJ tp.scanK
            (processIn tb.edges_parent tb.edges_child nt tb.edge_insertion_order
              tp.in_range.2 tp.scanJ
              (processOut tb.edges_parent tb.edges_child nt tb.edge_removal_order
                tp.out_range.2 tp.scanK s))
          exact processIn_inv hwf nt (scanJ_ge tp) hsJle hsmid
        refine ⟨⟨?_, ?_⟩, ?_⟩
        · exact removal_phase_safe hwf hnd hns hm hci nt hsi
        · exact insertion_phase_safe hwf hnd hns hm hci nt hsmid
        · exact ih (tp.next).1 s2 recs' fin' hm' hci' hsi2 hrec

/-!
### Small helpers for the claim statements
-/

theorem scanWhileEqAux_one_ne (f : ℕ → ℚ) (x : ℚ) (k : ℕ) (h : f k ≠ x) :
    scanWhileEqAux f x 1 k = k := by
  simp [scanWhileEqAux, h]

theorem getD_mem_of_lt {α : Type} (l : List α) (d : α) {n : ℕ} (h : n < l.length) :
    l.getD n d ∈ l := by
  rw [List.getD_eq_getElem l d h]
  exact List.getElem_mem h

theorem getLast_eq_getD {α : Type} (l : List α) (d : α) (h : l ≠ []) :
    l.getLast h = l.getD (l.length - 1) d := by
  have hlt : l.length - 1 < l.length := by
    have := List.length_pos.mpr h
    omega
  rw [List.getLast_eq_getElem, List.getD_eq_getElem l d hlt]

theorem safeRun_head {tb : EdgeTable} {nt : ℕ → ℚ} {nn : ℕ} {s : StatsState}
    {l : List TreeRecord} (h : SafeRun tb nt nn s l) (hne : l ≠ []) :
    SafeCall tb nt nn s (l.getD 0 defaultRecord) := by
  cases l with
  | nil => exact absurd rfl hne
  | cons r rest => exact h.1

/-!
### The claims
-/

/-- C1: the spec states that during removal processing the running
max-arity value is decremented exactly when the removed parent's arity
equals it and the histogram bucket has just become 0.  In the code
(src/utils.py line 111) the test is `nodes_with_arity[num_children[p]] == 1`
after the decrement, so the decrement does not happen when the bucket
empties.  On the two-edge table `exTwo`, at the removal processed for the
second tree the parent's arity (2) equals the running max (2) and the
bucket at 2 becomes 0, yet `current_max_arity` stays 2: the code
contradicts the claimed condition. -/
theorem claim_C1_removal_max_arity_condition :
    ((runRecs exTwo exTwoTime).getD 0 defaultRecord).stats.num_children
        (exTwo.edges_parent (exTwo.edge_removal_order 0))
      = ((runRecs exTwo exTwoTime).getD 0 defaultRecord).stats.current_max_arity ∧
    (removeEdge exTwo.edges_parent exTwo.edges_child exTwoTime (exTwo.edge_removal_order 0)
        ((runRecs exTwo exTwoTime).getD 0 defaultRecord).stats).nodes_with_arity
      (((runRecs exTwo exTwoTime).getD 0 defaultRecord).stats.num_children
        (exTwo.edges_parent (exTwo.edge_removal_order 0))) = 0 ∧
    (removeEdge exTwo.edges_parent exTwo.edges_child exTwoTime (exTwo.edge_removal_order 0)
        ((runRecs exTwo exTwoTime).getD 0 defaultRecord).stats).current_max_arity
      = ((runRecs exTwo exTwoTime).getD 0 defaultRecord).stats.current_max_arity ∧
    ((runRecs exTwo exTwoTime).getD 1 defaultRecord).out_range = (0, 1) := by
  refine ⟨by decide, by decide, by decide, by decide⟩

/-- C2: the emitted per-tree `max_arity` should equal the brute-force
maximum out-degree of the local tree obtained by direct interval scanning.
On the table `exTwo` (one node whose arity drops from 2 to 1 at the
breakpoint 1) the accumulator emits max arity 2 for both trees, while the
brute-force recomputation at the two tree intervals gives 2 and 1: the
code diverges from the claim on its second tree. -/
theorem claim_C2_max_arity_brute_force_divergence :
    (runRecs exTwo exTwoTime).map (fun r => r.interval) = [(0, 1), (1, 2)] ∧
    (runRecs exTwo exTwoTime).map (fun r => r.stats.current_max_arity) = [2, 2] ∧
    bruteMaxArityAt exTwo 3 0 = 2 ∧
    bruteMaxArityAt exTwo 3 1 = 1 := by
  refine ⟨by decide, by decide, by decide, by decide⟩

/-- C3, counterexample: the claim asserts the histogram property for every
arity in `[0, num_nodes)`.  It fails at `a = 0` on the well-formed
single-edge table `exOne` with 2 nodes: at the only emission
`nodes_with_arity[0] = 0` (the code never books nodes into bucket 0)
while one node (the child) has out-degree 0. -/
theorem claim_C3_histogram_zero_bucket_cex :
    ¬ (∀ r ∈ runRecs exOne exOneTime, ∀ a : ℤ, 0 ≤ a → a < (2 : ℤ) →
        r.stats.nodes_with_arity a
          = (((Finset.range 2).filter (fun n => r.stats.num_children n = a)).card : ℤ)) := by
  intro h
  have hlen : 0 < (runRecs exOne exOneTime).length := by decide
  have hmem : (runRecs exOne exOneTime).getD 0 defaultRecord ∈ runRecs exOne exOneTime :=
    getD_mem_of_lt _ _ hlen
  have h2 := h _ hmem 0 (le_refl 0) (by norm_num)
  exact absurd h2 (by decide)

/-- C3 (amended): at every tree emission point of the traversal of a
well-formed table, for every arity value `a` in `[1, num_nodes)` (bucket 0
is never maintained by the code), `nodes_with_arity[a]` equals the count
of nodes whose current out-degree equals `a`. -/
theorem claim_C3_arity_histogram_amended (tb : EdgeTable) (num_nodes : ℕ)
    (nt : ℕ → ℚ) (hwf : WellFormed tb num_nodes) :
    ∃ recs fin, compute_per_tree_stats tb nt = some (recs, fin) ∧
      ∀ r ∈ recs, ∀ a : ℤ, 1 ≤ a → a < (num_nodes : ℤ) →
        r.stats.nodes_with_arity a
          = (((Finset.range num_nodes).filter
              (fun n => r.stats.num_children n = a)).card : ℤ) := by
  obtain ⟨recs, fin, hr, _, _, _, _, hstats⟩ := compute_spec hwf nt
  exact ⟨recs, fin, hr, fun r hrmem a ha _ => (hstats r hrmem).hist_eq a ha⟩

/-- Witness for C3 (amended) at the concrete table `exOne`. -/
theorem claim_C3_arity_histogram_witness :
    WellFormed exOne 2 ∧
    (∃ recs fin, compute_per_tree_stats exOne exOneTime = some (recs, fin) ∧
      ∀ r ∈ recs, ∀ a : ℤ, 1 ≤ a → a < (2 : ℤ) →
        r.stats.nodes_with_arity a
          = (((Finset.range 2).filter
              (fun n => r.stats.num_children n = a)).card : ℤ)) := by
  have hwf : WellFormed exOne 2 := by constructor <;> decide
  exact ⟨hwf, claim_C3_arity_histogram_amended exOne 2 exOneTime hwf⟩

/-- C4: an advance call returns false exactly when, after consuming this
breakpoint's insertions, no not-yet-inserted edge remains and the previous
tree's right boundary has reached `sequence_length`; otherwise it returns
true. -/
theorem claim_C4_advance_false_iff (tp : TreePosition) :
    (tp.next).2 = false ↔
      (tp.num_edges ≤ (tp.next).1.in_range.2 ∧ tp.sequence_length ≤ tp.interval.2) := by
  rw [next_bool]
  simp only [decide_eq_false_iff_not, not_or, not_lt]
  constructor
  · rintro ⟨h1, h2⟩
    exact ⟨h1, h2⟩
  · rintro ⟨h1, h2⟩
    exact ⟨h1, h2⟩

/-- C5: on every advance call the new interval is
`[previous_right, new_right)` where `new_right` is the minimum of
`sequence_length`, the left of the next not-yet-inserted edge (if any
remain) and the right of the next not-yet-removed edge (if any remain). -/
theorem claim_C5_advance_right_boundary (tp : TreePosition) :
    (tp.next).1.interval = (tp.interval.2, specNewRight tp) := by
  rw [next_interval, newRight_eq_spec]

/-- C6: over any well-formed table with positive sequence length, the
intervals emitted by the calls that return true tile the genome: the first
starts at 0, each is non-empty, consecutive ones are contiguous, and the
last ends at `sequence_length`. -/
theorem claim_C6_interval_tiling (tb : EdgeTable) (num_nodes : ℕ) (nt : ℕ → ℚ)
    (hwf : WellFormed tb num_nodes) (hL : 0 < tb.sequence_length) :
    ∃ recs fin, compute_per_tree_stats tb nt = some (recs, fin) ∧
      recs ≠ [] ∧
      ((recs.map (fun r => r.interval)).getD 0 (0, 0)).1 = 0 ∧
      (∀ i, i + 1 < recs.length →
        ((recs.map (fun r => r.interval)).getD (i + 1) (0, 0)).1
          = ((recs.map (fun r => r.interval)).getD i (0, 0)).2) ∧
      (∀ i, i < recs.length →
        ((recs.map (fun r => r.interval)).getD i (0, 0)).1
          < ((recs.map (fun r => r.interval)).getD i (0, 0)).2) ∧
      ((recs.map (fun r => r.interval)).getD (recs.length - 1) (0, 0)).2
        = tb.sequence_length := by
  obtain ⟨recs, fin, hr, hch, hfinL, _, _, _⟩ := compute_spec hwf nt
  have hne : recs.map (fun r => r.interval) ≠ [] := by
    apply chainFrom_nonempty hch
    rw [hfinL]
    exact ne_of_lt hL
  have hrecs_ne : recs ≠ [] := by
    intro hnil
    rw [hnil] at hne
    simp at hne
  have hlen : (recs.map (fun r => r.interval)).length = recs.length :=
    List.length_map _ _
  refine ⟨recs, fin, hr, hrecs_ne, chainFrom_first hch hne, ?_, ?_, ?_⟩
  · intro i hi
    exact chainFrom_adjacent hch i (by rw [hlen]; exact hi)
  · intro i hi
    exact chainFrom_lt hch i (by rw [hlen]; exact hi)
  · have h1 := chainFrom_last hch hne
    rw [getLast_eq_getD _ (0, 0) hne, hlen] at h1
    rw [h1, hfinL]

/-- Witness for C6 at the concrete table `exOne`. -/
theorem claim_C6_interval_tiling_witness :
    WellFormed exOne 2 ∧ (0 : ℚ) < exOne.sequence_length ∧
    (∃ recs fin, compute_per_tree_stats exOne exOneTime = some (recs, fin) ∧
      recs ≠ [] ∧
      ((recs.map (fun r => r.interval)).getD 0 (0, 0)).1 = 0 ∧
      (∀ i, i + 1 < recs.length →
        ((recs.map (fun r => r.interval)).getD (i + 1) (0, 0)).1
          = ((recs.map (fun r => r.interval)).getD i (0, 0)).2) ∧
      (∀ i, i < recs.length →
        ((recs.map (fun r => r.interval)).getD i (0, 0)).1
          < ((recs.map (fun r => r.interval)).getD i (0, 0)).2) ∧
      ((recs.map (fun r => r.interval)).getD (recs.length - 1) (0, 0)).2
        = exOne.sequence_length) := by
  have hwf : WellFormed exOne 2 := by constructor <;> decide
  have hL : (0 : ℚ) < exOne.sequence_length := by norm_num [exOne]
  exact ⟨hwf, hL, claim_C6_interval_tiling exOne 2 exOneTime hwf hL⟩

/-- C7: over the whole traversal of a well-formed table, every advance
call included up to and including the one returning false, each edge
appears at exactly one position of the consumed `in_range` ranges (taken
through `edge_insertion_order`) and at exactly one position of the
consumed `out_range` ranges (taken through `edge_removal_order`). -/
theorem claim_C7_edge_coverage (tb : EdgeTable) (num_nodes : ℕ) (nt : ℕ → ℚ)
    (hwf : WellFormed tb num_nodes) :
    ∃ recs fin, compute_per_tree_stats tb nt = some (recs, fin) ∧
      ∀ e, e < tb.num_edges →
        ((((recs.map (fun r => r.in_range)) ++ [fin.in_range]).map
            rangePositions).flatten.map tb.edge_insertion_order).count e = 1 ∧
        ((((recs.map (fun r => r.out_range)) ++ [fin.out_range]).map
            rangePositions).flatten.map tb.edge_removal_order).count e = 1 := by
  obtain ⟨recs, fin, hr, _, _, rin, rout, _⟩ := compute_spec hwf nt
  refine ⟨recs, fin, hr, fun e he => ⟨?_, ?_⟩⟩
  · rw [rangeChain_flatten rin, Nat.sub_zero, ← List.range_eq_range']
    exact count_map_perm_eq_one _ _ hwf.ins_lt hwf.ins_inj e he
  · rw [rangeChain_flatten rout, Nat.sub_zero, ← List.range_eq_range']
    exact count_map_perm_eq_one _ _ hwf.rem_lt hwf.rem_inj e he

/-- Witness for C7 at the concrete table `exOne`. -/
theorem claim_C7_edge_coverage_witness :
    WellFormed exOne 2 ∧
    (∃ recs fin, compute_per_tree_stats exOne exOneTime = some (recs, fin) ∧
      ∀ e, e < exOne.num_edges →
        ((((recs.map (fun r => r.in_range)) ++ [fin.in_range]).map
            rangePositions).flatten.map exOne.edge_insertion_order).count e = 1 ∧
        ((((recs.map (fun r => r.out_range)) ++ [fin.out_range]).map
            rangePositions).flatten.map exOne.edge_removal_order).count e = 1) := by
  have hwf : WellFormed exOne 2 := by constructor <;> decide
  exact ⟨hwf, claim_C7_edge_coverage exOne 2 exOneTime hwf⟩

/-- C8: on a table with the single edge `(left = 0, right = L)` of parent
time 5 and child time 2 over a genome of length `L`, the accumulator emits
exactly one tree with total branch length 3, one internal node, and max
arity 1. -/
theorem claim_C8_single_edge_stats (L : ℚ) (p c : ℕ) (nt : ℕ → ℚ)
    (hL : 0 < L) (hp : nt p = 5) (hc : nt c = 2) :
    (compute_per_tree_stats
        ⟨1, L, fun _ => 0, fun _ => L, fun _ => 0, fun _ => 0,
          fun _ => p, fun _ => c⟩ nt).map
      (fun res => res.1.map recStats) = some [(3, 1, 1)] := by
  set tb : EdgeTable := ⟨1, L, fun _ => 0, fun _ => L, fun _ => 0, fun _ => 0,
    fun _ => p, fun _ => c⟩ with htb
  set tp0 := initTreePosition tb with htp0
  have hMe : tp0.num_edges = 1 := rfl
  have hJ0 : tp0.scanJ = 1 := rfl
  have hK0 : tp0.scanK = 0 := by
    show scanWhileEqAux (fun i => tp0.edges_right (tp0.edge_removal_order i))
      tp0.interval.2 1 0 = 0
    apply scanWhileEqAux_one_ne
    show L ≠ (0 : ℚ)
    exact ne_of_gt hL
  have hNR : tp0.newRight = L := by
    simp only [TreePosition.newRight]
    rw [if_neg (show ¬ tp0.scanJ < tp0.num_edges by omega),
      if_pos (show tp0.scanK < tp0.num_edges by omega)]
    show min L L = L
    exact min_self L
  have hb1 : (tp0.next).2 = true := by
    rw [next_bool]
    apply decide_eq_true
    right
    show (0 : ℚ) < L
    exact hL
  have hb2 : ((tp0.next).1.next).2 = false := by
    rw [next_bool]
    apply decide_eq_false
    rintro (h | h)
    · have e1 : (tp0.next).1.scanJ = 1 := rfl
      have e2 : (tp0.next).1.num_edges = 1 := rfl
      omega
    · have e3 : (tp0.next).1.interval.2 = tp0.newRight := rfl
      have e4 : (tp0.next).1.sequence_length = L := rfl
      rw [e3, e4, hNR] at h
      exact lt_irrefl L h
  show (statsLoop tb.edges_parent tb.edges_child nt (statsFuel tb) tp0 initStats).map
      (fun res => res.1.map recStats) = some [(3, 1, 1)]
  rw [show statsFuel tb = 7 + 1 by norm_num [statsFuel]]
  rw [statsLoop_succ_true _ _ _ _ _ _ hb1]
  rw [show (7 : ℕ) = 6 + 1 by norm_num]
  rw [statsLoop_succ_false _ _ _ _ _ _ hb2]
  have e5 : (tp0.next).1.out_range.2 = tp0.scanK := rfl
  have e6 : (tp0.next).1.in_range.1 = 0 := rfl
  have e7 : (tp0.next).1.in_range.2 = 1 := hJ0
  have e8 : (tp0.next).1.out_range.1 = 0 := rfl
  have e9 : (tp0.next).1.edge_insertion_order = fun _ => (0 : ℕ) := rfl
  have e10 : (tp0.next).1.edge_removal_order = fun _ => (0 : ℕ) := rfl
  have f1 : tb.edges_parent = fun _ => p := rfl
  have f2 : tb.edges_child = fun _ => c := rfl
  simp only [Option.map_some, List.map_cons, List.map_nil, e5, hK0, e6, e7, e8,
    e9, e10, f1, f2, recStats]
  simp only [processIn, processOut, Nat.sub_zero, Nat.sub_self, List.range'_one,
    List.range'_zero, List.foldl_cons, List.foldl_nil, insertEdge, initStats]
  norm_num [hp, hc]
  simp [recStats]

/-- Witness for C8 with `L = 1`, parent 0, child 1 and times from
`exOneTime`. -/
theorem claim_C8_single_edge_stats_witness :
    (0 : ℚ) < 1 ∧ exOneTime 0 = 5 ∧ exOneTime 1 = 2 ∧
    (compute_per_tree_stats
        ⟨1, 1, fun _ => 0, fun _ => 1, fun _ => 0, fun _ => 0,
          fun _ => 0, fun _ => 1⟩ exOneTime).map
      (fun res => res.1.map recStats) = some [(3, 1, 1)] := by
  refine ⟨by norm_num, by decide, by decide, ?_⟩
  exact claim_C8_single_edge_stats 1 0 1 exOneTime (by norm_num) (by decide) (by decide)

/-- C9: on a table with no edges and positive sequence length the
traversal completes and emits exactly one tree whose three statistics are
all zero. -/
theorem claim_C9_empty_table (L : ℚ) (el er : ℕ → ℚ) (io ro ep ec : ℕ → ℕ)
    (nt : ℕ → ℚ) (hL : 0 < L) :
    (compute_per_tree_stats ⟨0, L, el, er, io, ro, ep, ec⟩ nt).map
      (fun res => res.1.map recStats) = some [(0, 0, 0)] := by
  set tb : EdgeTable := ⟨0, L, el, er, io, ro, ep, ec⟩ with htb
  set tp0 := initTreePosition tb with htp0
  have hb1 : (tp0.next).2 = true := by
    rw [next_bool]
    apply decide_eq_true
    right
    show (0 : ℚ) < L
    exact hL
  have hb2 : ((tp0.next).1.next).2 = false := by
    rw [next_bool]
    apply decide_eq_false
    rintro (h | h)
    · have e1 : (tp0.next).1.scanJ = 0 := rfl
      have e2 : (tp0.next).1.num_edges = 0 := rfl
      omega
    · exact absurd h (lt_irrefl L)
  show (statsLoop tb.edges_parent tb.edges_child nt (statsFuel tb) tp0 initStats).map
      (fun res => res.1.map recStats) = some [(0, 0, 0)]
  rw [show statsFuel tb = 3 + 1 by norm_num [statsFuel]]
  rw [statsLoop_succ_true _ _ _ _ _ _ hb1]
  rw [show (3 : ℕ) = 2 + 1 by norm_num]
  rw [statsLoop_succ_false _ _ _ _ _ _ hb2]
  rfl

/-- Witness for C9 with `L = 1`. -/
theorem claim_C9_empty_table_witness :
    (0 : ℚ) < 1 ∧
    (compute_per_tree_stats
        ⟨0, 1, fun _ => 0, fun _ => 0, fun _ => 0, fun _ => 0,
          fun _ => 0, fun _ => 0⟩ (fun _ => 0)).map
      (fun res => res.1.map recStats) = some [(0, 0, 0)] := by
  refine ⟨by norm_num, ?_⟩
  exact claim_C9_empty_table 1 (fun _ => 0) (fun _ => 0) (fun _ => 0) (fun _ => 0)
    (fun _ => 0) (fun _ => 0) (fun _ => 0) (by norm_num)

/-- C10, counterexample: the documented invariants (sorted permutations,
ids in range, parent older than child) do not make every histogram access
in-bounds.  The table `exDup` with two identical parallel edges satisfies
them with 2 nodes, yet the second insertion of the first tree indexes
`nodes_with_arity` at `num_children[0] + 1 = 2 = num_nodes`. -/
theorem claim_C10_index_safety_cex :
    WellFormed exDup 2 ∧
    ¬ SafeRun exDup exDupTime 2 initStats (runRecs exDup exDupTime) := by
  constructor
  · constructor <;> decide
  · intro h
    have hne : runRecs exDup exDupTime ≠ [] := by
      apply List.length_pos.mp
      decide
    have hc := safeRun_head h hne
    have h2 := hc.2 1 (by decide) (by decide)
    exact absurd h2.2.2 (by decide)

/-- C10 (amended): under the documented input invariants and the
additional hypotheses that overlapping same-parent edges have distinct
children and no edge is a self-loop (both hold in a valid tree sequence),
every event of the traversal uses in-bounds indices into
`nodes_with_arity` (each index lies in `[0, num_nodes)`) and
`num_children` stays non-negative through every removal decrement. -/
theorem claim_C10_index_safety_amended (tb : EdgeTable) (num_nodes : ℕ)
    (nt : ℕ → ℚ) (hwf : WellFormed tb num_nodes) (hnd : NoDupChildren tb)
    (hns : NoSelfEdges tb) :
    ∃ recs fin, compute_per_tree_stats tb nt = some (recs, fin) ∧
      SafeRun tb nt num_nodes initStats recs := by
  obtain ⟨⟨recs, fin⟩, hr⟩ := Option.isSome_iff_exists.mp (compute_isSome hwf nt)
  exact ⟨recs, fin, hr,
    run_safe hwf hnd hns nt (statsFuel tb) (initTreePosition tb) initStats recs fin
      (matches_init tb) (cursorInv_init hwf) (statsInv_init tb num_nodes) hr⟩

/-- Witness for C10 (amended) at the concrete table `exOne`. -/
theorem claim_C10_index_safety_witness :
    WellFormed exOne 2 ∧ NoDupChildren exOne ∧ NoSelfEdges exOne ∧
    (∃ recs fin, compute_per_tree_stats exOne exOneTime = some (recs, fin) ∧
      SafeRun exOne exOneTime 2 initStats recs) := by
  have hwf : WellFormed exOne 2 := by constructor <;> decide
  have hnd : NoDupChildren exOne := by unfold NoDupChildren; decide
  have hns : NoSelfEdges exOne := by unfold NoSelfEdges; decide
  exact ⟨hwf, hnd, hns, claim_C10_index_safety_amended exOne 2 exOneTime hwf hnd hns⟩
